import Mathlib

/-!
# wjaoss/config: aggregation and live-reload engine

A shallow embedding of the path-tree builder (`source_etcd.go`), the merge
engine and value accessor (`value_json.go`) and the refresh orchestrator
(`config.go`), with the properties of the specification stated over it.

Modelling conventions
* Go `string` and `[]byte` values holding text are Lean `String`s; the
  conversions `string(b)` and `[]byte(s)` are the identity.
* A decoded JSON document (`interface{}` produced by `encoding/json`) is a
  `JVal`; a Go `map[string]interface{}` is a `JMap`, an association list read
  through `JMap.lookup`.  A number keeps its literal text.
* Third-party routines (`json.Unmarshal`, `json.Marshal`, `strconv.ParseFloat`,
  `time.ParseDuration`, `fmt.Sprintf`, `md5.Sum`) are parameters of the
  definitions that call them.
-/

namespace Config

/-! ## Decoded JSON documents -/

mutual
/-- A decoded JSON value (`interface{}` as produced by `encoding/json`). -/
inductive JVal where
  | null : JVal
  | bool (b : Bool) : JVal
  | num (lit : String) : JVal
  | str (s : String) : JVal
  | arr (items : JArr) : JVal
  | obj (fields : JMap) : JVal
/-- A decoded JSON array (`[]interface{}`). -/
inductive JArr where
  | nil : JArr
  | cons (v : JVal) (rest : JArr) : JArr
/-- A Go `map[string]interface{}`: the entries in some order. -/
inductive JMap where
  | nil : JMap
  | cons (k : String) (v : JVal) (rest : JMap) : JMap
end

namespace JMap

/-- Map read `m[k]` with the comma-ok flag: `none` when the key is missing. -/
def lookup (k : String) : JMap → Option JVal
  | .nil => none
  | .cons k' v rest => if k' = k then some v else lookup k rest

/-- Map write `m[k] = v`. -/
def insert (k : String) (v : JVal) : JMap → JMap
  | .nil => .cons k v .nil
  | .cons k' v' rest => if k' = k then .cons k v rest else .cons k' v' (insert k v rest)

/-- Builtin `delete(m, k)`. -/
def erase (k : String) : JMap → JMap
  | .nil => .nil
  | .cons k' v rest => if k' = k then erase k rest else .cons k' v (erase k rest)

end JMap

/-- Walk `path` from `v` through nested maps: `some` of the value reached, or
`none` when a segment is missing or the value under it is no map. -/
def lookupPath : JVal → List String → Option JVal
  | v, [] => some v
  | .obj m, k :: ks =>
    match m.lookup k with
    | some child => lookupPath child ks
    | none => none
  | _, _ :: _ => none

/-! ## Go string helpers -/

/-- The pieces of a character list between occurrences of `sep`. -/
def splitChars (sep : Char) : List Char → List (List Char)
  | [] => [[]]
  | c :: cs =>
    if c = sep then [] :: splitChars sep cs
    else
      match splitChars sep cs with
      | [] => [[c]]
      | piece :: pieces => (c :: piece) :: pieces

/-- Go `strings.Split(s, sep)` for a one-character separator. -/
def Split (s : String) (sep : Char) : List String :=
  (splitChars sep s.data).map String.mk

/-- Go `strings.Contains(s, sep)` for a one-character separator. -/
def Contains (s : String) (sep : Char) : Bool :=
  s.data.contains sep

/-- Go `strings.TrimPrefix(s, pre)`. -/
def TrimPrefix (s pre : String) : String :=
  if pre.data.isPrefixOf s.data then String.mk (s.data.drop pre.data.length) else s

/-! ## Path-tree builder (`source_etcd.go`) -/

/-- The fields of `mvccpb.KeyValue` that `update` reads. -/
structure KeyValue where
  Key : String
  Value : String

/-- Lines 210-213 of `update`: the decoded value, or the raw string when the
bytes do not decode. -/
def decodeValue (unmarshal : String → Option JVal) (value : String) : JVal :=
  match unmarshal value with
  | some v => v
  | none => .str value

/-- The key with the prefix and one leading separator removed (line 205). -/
def stripKey (key stripPrefix : String) : String :=
  TrimPrefix (TrimPrefix key stripPrefix) "/"

/-- The loop of `update` (lines 236-260) over the remaining `keys`, started at
the map `kvals`; the result is `kvals` after the in-place writes. -/
def walkKeys (action : String) (vals : JVal) : List String → JMap → JMap
  | [], kvals => kvals
  | k :: ks, kvals =>
    let found : Option JMap :=
      match kvals.lookup k with
      | some (.obj m) => some m
      | _ => none
    let kval : JMap := found.getD .nil
    let kvals1 : JMap := if found.isSome then kvals else kvals.insert k (.obj kval)
    match ks with
    | [] => if action = "delete" then kvals1.erase k else kvals1.insert k vals
    | _ :: _ => kvals1.insert k (.obj (walkKeys action vals ks kval))

/-- Function `update` of `source_etcd.go`. -/
def update (unmarshal : String → Option JVal) (data : JMap) (v : KeyValue)
    (action stripPrefix : String) : JMap :=
  let vkey := stripKey v.Key stripPrefix
  let haveSplit := Contains vkey '/'
  let keys := Split vkey '/'
  let vals := decodeValue unmarshal v.Value
  if !haveSplit && keys.length == 1 then
    let key := keys.headD ""
    if action = "delete" then .nil
    else if key = "" then
      match vals with
      | .obj m => m
      | _ => data
    else data.insert key vals
  else walkKeys action vals keys data

/-- Function `makeMap` of `source_etcd.go`. -/
def makeMap (unmarshal : String → Option JVal) (kv : List KeyValue) (stripPrefix : String) : JMap :=
  kv.foldl (fun data v => update unmarshal data v "put" stripPrefix) .nil

/-- A decoder for the handful of JSON texts used in the concrete examples. -/
def sampleUnmarshal (s : String) : Option JVal :=
  if s = "1" then some (.num "1")
  else if s = "5" then some (.num "5")
  else if s = "\x7b\"k\":1\x7d" then some (.obj (.cons "k" (.num "1") .nil))
  else none

/-- The map found under `k`, or a fresh empty map (lines 239-245 of `update`). -/
def childMap (m : JMap) (k : String) : JMap :=
  match m.lookup k with
  | some (.obj c) => c
  | _ => .nil

/-- The map `kvals` after line 244 has run for key `k`: a value that is no map
is replaced by a fresh empty map. -/
def materialize (m : JMap) (k : String) : JMap :=
  match m.lookup k with
  | some (.obj _) => m
  | _ => m.insert k (.obj .nil)

/-! ## Snapshots (`source.go`) -/

/-- A Go `error` value, by its message. -/
abbrev GoError := String

/-- Type `Snapshot` of `source.go`: the payload and the memoised checksum
(empty until `Checksum` has run). -/
structure Snapshot where
  Data : String
  checksum : String := ""
deriving DecidableEq, Repr

/-- Method `Snapshot.Checksum`; `cksum` is the package function `checksum`
(the hex md5 digest).  The method also stores its result in the `checksum`
field; that store changes no later result of `Checksum` and is not kept here. -/
def Snapshot.Checksum (cksum : String → String) (s : Snapshot) : String :=
  if s.checksum = "" then cksum s.Data else s.checksum

/-- A snapshot whose memo field is unset or holds the digest of its payload,
as is every snapshot built by the loaders. -/
def Snapshot.Coherent (cksum : String → String) (s : Snapshot) : Prop :=
  s.checksum = "" ∨ s.checksum = cksum s.Data

/-! ## Refresh orchestrator (`config.go`) -/

/-- A buffered `chan struct{}`: its capacity and the number of buffered items. -/
structure Chan where
  cap : Nat
  len : Nat
deriving DecidableEq, Repr

/-- Builtin `make(chan struct{}, n)`. -/
def Chan.make (n : Nat) : Chan := { cap := n, len := 0 }

/-- The `select` of lines 147-151: a send when the buffer has room, the
`default` branch otherwise. -/
def Chan.trySend (ch : Chan) : Chan :=
  if ch.len < ch.cap then { ch with len := ch.len + 1 } else ch

/-- A receive `<-ch` by the subscriber: takes one buffered item; on an empty
buffer the reader waits and the channel is as before. -/
def Chan.receive (ch : Chan) : Chan :=
  if 0 < ch.len then { ch with len := ch.len - 1 } else ch

/-- The reader and merger held in `Options`. -/
structure Options (V : Type) where
  reader : Snapshot → Except GoError V
  merger : List Snapshot → Except GoError Snapshot

/-- Struct `config`: the fields written by `readAndMergeConfigs` and `Subscribe`.
A nil slice is the empty list, a nil pointer or interface is `none`. -/
structure config (V : Type) where
  snaps : List Snapshot
  snap : Option Snapshot
  values : Option V
  subscribers : List Chan

/-- Lines 100-109 of `readAndMergeConfigs`: `loads` lists what the `Load` of
each registered source returns in this cycle; the first error ends the loop. -/
def loadAll : List (Except GoError Snapshot) → Except GoError (List Snapshot)
  | [] => .ok []
  | .error e :: _ => .error e
  | .ok s :: rest =>
    match loadAll rest with
    | .ok ss => .ok (s :: ss)
    | .error e => .error e

/-- The loop of lines 116-121 over two lists of one length. -/
def checksumsDiffer (cksum : String → String) : List Snapshot → List Snapshot → Bool
  | a :: as, b :: bs =>
    if a.Checksum cksum ≠ b.Checksum cksum then true else checksumsDiffer cksum as bs
  | _, _ => false

/-- Lines 112-122: the value of `changed`. -/
def isChanged (cksum : String → String) (old new : List Snapshot) : Bool :=
  if old.length == 0 || old.length != new.length then true
  else checksumsDiffer cksum old new

/-- Lines 146-152: the non-blocking send to every subscriber. -/
def notifyAll (subscribers : List Chan) : List Chan :=
  subscribers.map Chan.trySend

/-- Method `config.readAndMergeConfigs`: the returned error (`none` for nil)
and the state afterwards. -/
def readAndMergeConfigs {V : Type} (opts : Options V) (cksum : String → String)
    (c : config V) (loads : List (Except GoError Snapshot)) : Option GoError × config V :=
  match loadAll loads with
  | .error e => (some e, c)
  | .ok snaps =>
    if isChanged cksum c.snaps snaps then
      match opts.merger snaps with
      | .error e => (some e, c)
      | .ok snap =>
        match opts.reader snap with
        | .error e => (some e, c)
        | .ok values =>
          (none, { snaps := snaps, snap := some snap, values := some values,
                   subscribers := notifyAll c.subscribers })
    else (none, c)

/-- Method `config.Subscribe`: the new channel and the state afterwards. -/
def Subscribe {V : Type} (c : config V) : Chan × config V :=
  (Chan.make 1, { c with subscribers := c.subscribers ++ [Chan.make 1] })

/-- The subscriber list after the subscriber at position `i` has read once. -/
def receiveNth : Nat → List Chan → List Chan
  | _, [] => []
  | 0, ch :: rest => ch.receive :: rest
  | i + 1, ch :: rest => ch :: receiveNth i rest

/-- A subscriber reads once from the channel registered at position `i`. -/
def receiveAt {V : Type} (c : config V) (i : Nat) : config V :=
  { c with subscribers := receiveNth i c.subscribers }

/-- What can happen to the orchestrator: a `Subscribe` call, a refresh cycle
with the given `Load` results, a read by the subscriber at a position. -/
inductive Event where
  | subscribe : Event
  | refresh (loads : List (Except GoError Snapshot)) : Event
  | read (i : Nat) : Event

/-- One event applied to the state. -/
def step {V : Type} (opts : Options V) (cksum : String → String) (c : config V) :
    Event → config V
  | .subscribe => (Subscribe c).2
  | .refresh loads => (readAndMergeConfigs opts cksum c loads).2
  | .read i => receiveAt c i

/-- The state after a sequence of events. -/
def run {V : Type} (opts : Options V) (cksum : String → String) (c : config V)
    (events : List Event) : config V :=
  events.foldl (step opts cksum) c

/-- A refresh cycle that declares a change and completes: every `Load`
succeeds, `changed` is set, the merger and the reader succeed. -/
def ChangedRefresh {V : Type} (opts : Options V) (cksum : String → String) (c : config V)
    (loads : List (Except GoError Snapshot)) : Prop :=
  ∃ snaps snap values, loadAll loads = .ok snaps ∧ isChanged cksum c.snaps snaps = true
    ∧ opts.merger snaps = .ok snap ∧ opts.reader snap = .ok values

/-- A stand-in digest for the concrete examples. -/
def sampleChecksum (data : String) : String := "md5:" ++ data

/-- A merger and a reader for the concrete examples: the merged payload is the
concatenation of the payloads, the values are the merged payload. -/
def sampleOptions : Options String where
  reader := fun s => .ok s.Data
  merger := fun ss => .ok { Data := String.join (ss.map Snapshot.Data) }

/-- Options whose merger fails. -/
def failingMergerOptions : Options String where
  reader := fun s => .ok s.Data
  merger := fun _ => .error "merge failed"

/-- The state of a freshly built `config`. -/
def emptyConfig : config String :=
  { snaps := [], snap := none, values := none, subscribers := [] }

/-! ## Value accessor (`value_json.go`) -/

/-- Go `strconv.ParseBool`. -/
def ParseBool (s : String) : Option Bool :=
  if s ∈ ["1", "t", "T", "TRUE", "true", "True"] then some true
  else if s ∈ ["0", "f", "F", "FALSE", "false", "False"] then some false
  else none

/-- The number written by a list of decimal digits. -/
def digitsValue (ds : List Char) : Nat :=
  ds.foldl (fun acc c => 10 * acc + (c.toNat - 48)) 0

/-- Go `strconv.Atoi` on a 64-bit platform: an optional sign, one decimal
digit or more, and a value that fits `int`; anything else is an error. -/
def Atoi (s : String) : Option Int :=
  let body : List Char :=
    match s.data with
    | '+' :: rest => rest
    | '-' :: rest => rest
    | cs => cs
  if body.isEmpty || !body.all Char.isDigit then none
  else
    let n : Int := if s.data.head? = some '-' then -(digitsValue body : Int) else digitsValue body
    if -(2 ^ 63 : Int) ≤ n ∧ n < 2 ^ 63 then some n else none

/-- The library routines the typed readers call beside `strconv.ParseBool` and
`strconv.Atoi`; `F` stands for `float64`, a duration is its nanoseconds. -/
structure Lib (F : Type) where
  /-- Go `strconv.ParseFloat(s, 64)`. -/
  parseFloat : String → Option F
  /-- Go `time.ParseDuration`. -/
  parseDuration : String → Option Int
  /-- Go `fmt.Sprintf("%v", v)`. -/
  sprint : JVal → String

/-- Type `jsonValue`: a `simplejson.Json` handle, by the data it wraps. -/
structure jsonValue where
  data : JVal

/-- Type `jsonValues`. -/
structure jsonValues where
  sj : JVal
  snap : Snapshot

/-- Method `simplejson.Json.Get`: the value under `key` when the data is a map
that has the key, otherwise a handle on nil. -/
def Json.Get (data : JVal) (key : String) : JVal :=
  match data with
  | .obj m =>
    match m.lookup key with
    | some val => val
    | none => .null
  | _ => .null

/-- Method `simplejson.Json.GetPath`. -/
def Json.GetPath (data : JVal) (branch : List String) : JVal :=
  branch.foldl Json.Get data

/-- Method `simplejson.Json.Map`. -/
def Json.Map (data : JVal) : Option JMap :=
  match data with
  | .obj m => some m
  | _ => none

/-- The loop of `simplejson.Json.StringArray`: nil items read as the empty
string, any other item that is no string is an error. -/
def stringItems : JArr → Option (List String)
  | .nil => some []
  | .cons .null rest => (stringItems rest).map (fun ss => "" :: ss)
  | .cons (.str s) rest => (stringItems rest).map (fun ss => s :: ss)
  | .cons _ _ => none

/-- Method `simplejson.Json.StringArray`. -/
def Json.StringArray (data : JVal) : Option (List String) :=
  match data with
  | .arr items => stringItems items
  | _ => none

/-- The type assertion `j.Interface().(string)`. -/
def Json.asString (data : JVal) : Option String :=
  match data with
  | .str s => some s
  | _ => none

/-- Method `simplejson.Json.Float64`: a number is read by `json.Number.Float64`. -/
def Json.Float64 {F : Type} (lib : Lib F) (data : JVal) : Option F :=
  match data with
  | .num lit => lib.parseFloat lit
  | _ => none

/-- Method `simplejson.Json.Bool`: `none` stands for the error. -/
def Json.Bool (data : JVal) : Option Bool :=
  match data with
  | .bool b => some b
  | _ => none

/-- Method `simplejson.Json.Int`: a number is read by `json.Number.Int64`. -/
def Json.Int (data : JVal) : Option Int :=
  match data with
  | .num lit => Atoi lit
  | _ => none

/-- Method `simplejson.Json.String`. -/
def Json.String (data : JVal) : Option String :=
  match data with
  | .str s => some s
  | _ => none

/-- The entries of a map, as `range` visits them. -/
def JMap.entries : JMap → List (String × JVal)
  | .nil => []
  | .cons k v rest => (k, v) :: entries rest

/-- Function `resolvePath`. -/
def resolvePath (path : List String) : List String :=
  match path with
  | [] => []
  | [p] => Split p '.'
  | _ => path

/-- Method `jsonValues.Get`. -/
def jsonValues.Get (j : jsonValues) (path : List String) : jsonValue :=
  { data := Json.GetPath j.sj (resolvePath path) }

/-- Function `newJSONValues`: text that does not decode is kept as a string. -/
def newJSONValues (unmarshal : String → Option JVal) (snap : Snapshot) : jsonValues :=
  match unmarshal snap.Data with
  | some v => { sj := v, snap := snap }
  | none => { sj := .str snap.Data, snap := snap }

/-- Stand-ins for the float and duration parsers in the concrete examples. -/
def sampleLib : Lib String where
  parseFloat := fun s => if s = "1.5" then some "1.5" else none
  parseDuration := fun s => if s = "1s" then some 1000000000 else none
  sprint := fun v =>
    match v with
    | .str s => s
    | .num lit => lit
    | _ => "?"

/-- Method `jsonValue.StringSlice`. -/
def jsonValue.StringSlice (j : jsonValue) (d : List String) : List String :=
  let viaArray : List String :=
    match Json.StringArray j.data with
    | some a => a
    | none => d
  match Json.String j.data with
  | some v =>
    let sl := Split v ','
    if sl.length > 1 then sl else viaArray
  | none => viaArray

/-- Method `jsonValue.StringMap`: the result map, by its entries. -/
def jsonValue.StringMap {F : Type} (lib : Lib F) (j : jsonValue)
    (d : List (String × String)) : List (String × String) :=
  match Json.Map j.data with
  | none => d
  | some m => m.entries.map (fun kv => (kv.1, lib.sprint kv.2))

/-- Method `jsonValue.Duration`. -/
def jsonValue.Duration {F : Type} (lib : Lib F) (j : jsonValue) (d : Int) : Int :=
  match Json.String j.data with
  | none => d
  | some v =>
    match lib.parseDuration v with
    | none => d
    | some value => value

/-- Method `jsonValue.Float64`. -/
def jsonValue.Float64 {F : Type} (lib : Lib F) (j : jsonValue) (d : F) : F :=
  match Json.Float64 lib j.data with
  | some f => f
  | none =>
    match Json.asString j.data with
    | none => d
    | some str =>
      match lib.parseFloat str with
      | none => d
      | some f => f

/-- Method `jsonValue.Bool`. -/
def jsonValue.Bool (j : jsonValue) (d : Bool) : Bool :=
  match Json.Bool j.data with
  | some b => b
  | none =>
    match Json.asString j.data with
    | none => d
    | some str =>
      match ParseBool str with
      | none => d
      | some b => b

/-- Method `jsonValue.Int`. -/
def jsonValue.Int (j : jsonValue) (d : Int) : Int :=
  match Json.Int j.data with
  | some i => i
  | none =>
    match Json.asString j.data with
    | none => d
    | some str =>
      match Atoi str with
      | none => d
      | some i => i

/-- Method `jsonValue.String` (`simplejson.Json.MustString`). -/
def jsonValue.String (j : jsonValue) (d : String) : String :=
  match Json.String j.data with
  | some s => s
  | none => d

/-! ## Merge engine (`value_json.go`) -/

/-- Modelled from the spec: the deep override merge done by
`mergo.Map(&dst, src, mergo.WithOverride)`; the package `github.com/imdario/mergo`
is not part of the sources.  Section 4.4: for each key present in both
accumulator and incoming map, if both values are maps, merge recursively;
otherwise the incoming value replaces the accumulator's value.  Keys of the
accumulator that the incoming map lacks stay. -/
def deepMerge (dst : JMap) : JMap → JMap
  | .nil => dst
  | .cons k v rest =>
    match dst.lookup k, v with
    | some (.obj d), .obj s => (deepMerge dst rest).insert k (.obj (deepMerge d s))
    | _, _ => (deepMerge dst rest).insert k v

/-- Modelled from the spec: the call `mergo.Map(&merged, data, mergo.WithOverride)`
on two `map[string]interface{}` values, either of which may be the nil map
(`none`); a nil accumulator is made a map as soon as the incoming map is not
nil, and the call reports no error. -/
def mergoMap (dst src : Option JMap) : Except GoError (Option JMap) :=
  match dst, src with
  | dst, none => .ok dst
  | none, some s => .ok (some (deepMerge .nil s))
  | some d, some s => .ok (some (deepMerge d s))

/-- The loop of `jsonMerger.Merge` (lines 39-56).  `unmarshalMap` is
`json.Unmarshal` into a `map[string]interface{}`: the decoded map (`none` for
the nil map that JSON `null` leaves) or the error. -/
def mergeLoop (unmarshalMap : String → Except GoError (Option JMap)) :
    Option JMap → List (Option Snapshot) → Except GoError (Option JMap)
  | merged, [] => .ok merged
  | merged, none :: rest => mergeLoop unmarshalMap merged rest
  | merged, some m :: rest =>
    if m.Data = "" then mergeLoop unmarshalMap merged rest
    else
      match unmarshalMap m.Data with
      | .error e => .error e
      | .ok data =>
        match mergoMap merged data with
        | .error e => .error e
        | .ok merged1 => mergeLoop unmarshalMap merged1 rest

/-- Method `jsonMerger.Merge`; `marshal` is `json.Marshal` of the merged map. -/
def Merge (unmarshalMap : String → Except GoError (Option JMap))
    (marshal : Option JMap → Except GoError String)
    (snaps : List (Option Snapshot)) : Except GoError Snapshot :=
  match mergeLoop unmarshalMap none snaps with
  | .error e => .error e
  | .ok merged =>
    match marshal merged with
    | .error e => .error e
    | .ok b => .ok { Data := b }

/-- The value the deep override merge writes under a key: `held` is what the
accumulator has there, `v` the incoming value. -/
def mergedValue (held : Option JVal) (v : JVal) : JVal :=
  match held, v with
  | some (.obj d), .obj s => .obj (deepMerge d s)
  | _, _ => v

/-- What the deep override merge leaves under one key, from what the
accumulator and the incoming map hold under it. -/
def mergeEntry : Option JVal → Option JVal → Option JVal
  | some (.obj x), some (.obj y) => some (.obj (deepMerge x y))
  | _, some v => some v
  | held, none => held

mutual
/-- A plain rendering of a decoded value, used as the encoder in the concrete
examples (strings are not escaped). -/
def renderVal : JVal → String
  | .null => "null"
  | .bool true => "true"
  | .bool false => "false"
  | .num lit => lit
  | .str s => "\"" ++ s ++ "\""
  | .arr items => "[" ++ renderArr items ++ "]"
  | .obj fields => "\x7b" ++ renderMap fields ++ "\x7d"
/-- The items of an array, comma separated. -/
def renderArr : JArr → String
  | .nil => ""
  | .cons v .nil => renderVal v
  | .cons v rest => renderVal v ++ "," ++ renderArr rest
/-- The entries of a map, comma separated. -/
def renderMap : JMap → String
  | .nil => ""
  | .cons k v .nil => "\"" ++ k ++ "\":" ++ renderVal v
  | .cons k v rest => "\"" ++ k ++ "\":" ++ renderVal v ++ "," ++ renderMap rest
end

/-- The encoder of the concrete examples. -/
def sampleMarshal (m : Option JMap) : Except GoError String :=
  match m with
  | none => .ok "null"
  | some fields => .ok (renderVal (.obj fields))

/-- The document `{"x":{"y":1,"z":2}}` of the concrete examples. -/
def sampleDocA : JMap :=
  .cons "x" (.obj (.cons "y" (.num "1") (.cons "z" (.num "2") .nil))) .nil

/-- The document `{"x":{"y":3}}` of the concrete examples. -/
def sampleDocB : JMap :=
  .cons "x" (.obj (.cons "y" (.num "3") .nil)) .nil

/-- The decoder of the concrete examples: it knows the texts of `sampleDocA`
and `sampleDocB`. -/
def sampleUnmarshalMap (data : String) : Except GoError (Option JMap) :=
  if data = "\x7b\"x\":\x7b\"y\":1,\"z\":2\x7d\x7d" then .ok (some sampleDocA)
  else if data = "\x7b\"x\":\x7b\"y\":3\x7d\x7d" then .ok (some sampleDocB)
  else if data = "null" then .ok none
  else .error "invalid character"

/-! ## Joining path segments -/

/-- The character lists `pieces` with `sep` between neighbours. -/
def joinChars (sep : Char) : List (List Char) → List Char
  | [] => []
  | [piece] => piece
  | piece :: next :: pieces => piece ++ sep :: joinChars sep (next :: pieces)

/-- Go `strings.Join(elems, sep)` for a one-character separator: the dotted
string a caller writes for the segments `elems`. -/
def Join (elems : List String) (sep : Char) : String :=
  String.mk (joinChars sep (elems.map String.data))

/-! ## Lemmas on maps and paths -/

/-- Induction along the entries of a map. -/
theorem JMap.entries_induction {P : JMap → Prop} (hnil : P .nil)
    (hcons : ∀ k v rest, P rest → P (.cons k v rest)) : ∀ m, P m
  | .nil => hnil
  | .cons k v rest => hcons k v rest (JMap.entries_induction hnil hcons rest)

theorem JMap.lookup_insert_self (k : String) (v : JVal) (m : JMap) :
    (m.insert k v).lookup k = some v := by
  induction m using JMap.entries_induction with
  | hnil => simp [JMap.insert, JMap.lookup]
  | hcons k' v' rest ih =>
    by_cases h : k' = k
    · simp [JMap.insert, JMap.lookup, h]
    · simp [JMap.insert, JMap.lookup, h, ih]

theorem JMap.lookup_insert_ne {k k' : String} (h : k' ≠ k) (v : JVal) (m : JMap) :
    (m.insert k v).lookup k' = m.lookup k' := by
  induction m using JMap.entries_induction with
  | hnil => simp [JMap.insert, JMap.lookup, Ne.symm h]
  | hcons k2 v2 rest ih =>
    by_cases h2 : k2 = k
    · subst h2
      simp [JMap.insert, JMap.lookup, Ne.symm h]
    · by_cases h3 : k2 = k'
      · subst h3
        simp [JMap.insert, JMap.lookup, h2]
      · simp [JMap.insert, JMap.lookup, h2, h3, ih]

theorem JMap.lookup_erase_self (k : String) (m : JMap) :
    (m.erase k).lookup k = none := by
  induction m using JMap.entries_induction with
  | hnil => simp [JMap.erase, JMap.lookup]
  | hcons k' v' rest ih =>
    by_cases h : k' = k
    · simp [JMap.erase, h, ih]
    · simp [JMap.erase, JMap.lookup, h, ih]

theorem JMap.lookup_erase_ne {k k' : String} (h : k' ≠ k) (m : JMap) :
    (m.erase k).lookup k' = m.lookup k' := by
  induction m using JMap.entries_induction with
  | hnil => simp [JMap.erase, JMap.lookup]
  | hcons k2 v2 rest ih =>
    by_cases h2 : k2 = k
    · subst h2
      simp [JMap.erase, JMap.lookup, Ne.symm h, ih]
    · by_cases h3 : k2 = k'
      · subst h3
        simp [JMap.erase, JMap.lookup, h2]
      · simp [JMap.erase, JMap.lookup, h2, h3, ih]

theorem lookupPath_obj_cons (m : JMap) (k : String) (ks : List String) :
    lookupPath (.obj m) (k :: ks) =
      match m.lookup k with
      | some child => lookupPath child ks
      | none => none := by
  simp [lookupPath]

theorem lookupPath_nil (v : JVal) : lookupPath v [] = some v := by
  cases v <;> simp [lookupPath]

theorem lookupPath_childMap (m : JMap) (k : String) (p : List String) (hp : p ≠ []) :
    lookupPath (.obj (childMap m k)) p = lookupPath (.obj m) (k :: p) := by
  obtain ⟨q, qs, rfl⟩ := List.exists_cons_of_ne_nil hp
  rw [lookupPath_obj_cons m k]
  unfold childMap
  cases hm : m.lookup k with
  | none => simp [lookupPath, JMap.lookup]
  | some x => cases x <;> simp [lookupPath, JMap.lookup]

theorem walkKeys_single (action : String) (vals : JVal) (k : String) (m : JMap) :
    walkKeys action vals [k] m =
      if action = "delete" then (materialize m k).erase k
      else (materialize m k).insert k vals := by
  unfold walkKeys materialize
  cases hm : m.lookup k with
  | none => simp
  | some x => cases x <;> simp

theorem walkKeys_cons_cons (action : String) (vals : JVal) (k k2 : String)
    (ks : List String) (m : JMap) :
    walkKeys action vals (k :: k2 :: ks) m =
      (materialize m k).insert k (.obj (walkKeys action vals (k2 :: ks) (childMap m k))) := by
  conv_lhs => unfold walkKeys
  unfold materialize childMap
  cases hm : m.lookup k with
  | none => simp
  | some x => cases x <;> simp

theorem lookup_materialize_ne {k k' : String} (h : k' ≠ k) (m : JMap) :
    (materialize m k).lookup k' = m.lookup k' := by
  unfold materialize
  cases hm : m.lookup k with
  | none => simp [JMap.lookup_insert_ne h]
  | some x => cases x <;> simp [JMap.lookup_insert_ne h]

/-- Off the first segment the walk reads what the map held before. -/
theorem lookup_walkKeys_ne (action : String) (vals : JVal) {k k' : String} (h : k' ≠ k)
    (ks : List String) (m : JMap) :
    (walkKeys action vals (k :: ks) m).lookup k' = m.lookup k' := by
  cases ks with
  | nil =>
    rw [walkKeys_single]
    split
    · rw [JMap.lookup_erase_ne h, lookup_materialize_ne h]
    · rw [JMap.lookup_insert_ne h, lookup_materialize_ne h]
  | cons k2 ks =>
    rw [walkKeys_cons_cons, JMap.lookup_insert_ne h, lookup_materialize_ne h]

/-- Under the first of several segments the walk leaves the walked child map. -/
theorem lookup_walkKeys_head (action : String) (vals : JVal) (k k2 : String)
    (ks : List String) (m : JMap) :
    (walkKeys action vals (k :: k2 :: ks) m).lookup k =
      some (.obj (walkKeys action vals (k2 :: ks) (childMap m k))) := by
  rw [walkKeys_cons_cons, JMap.lookup_insert_self]

/-- A put walk leaves the value at the end of the path. -/
theorem lookupPath_walkKeys_put (action : String) (vals : JVal) (h : action ≠ "delete") :
    ∀ (keys : List String) (m : JMap), keys ≠ [] →
      lookupPath (.obj (walkKeys action vals keys m)) keys = some vals
  | [], _, hk => absurd rfl hk
  | [k], m, _ => by
    rw [walkKeys_single, if_neg h, lookupPath_obj_cons, JMap.lookup_insert_self]
    exact lookupPath_nil vals
  | k :: k2 :: ks, m, _ => by
    rw [lookupPath_obj_cons, lookup_walkKeys_head]
    exact lookupPath_walkKeys_put action vals h (k2 :: ks) (childMap m k) (List.cons_ne_nil _ _)

/-- Every proper prefix of the walked path ends at a map. -/
theorem lookupPath_walkKeys_prefix (action : String) (vals : JVal) :
    ∀ (keys : List String) (m : JMap) (p : List String), p <+: keys → p ≠ keys →
      ∃ m', lookupPath (.obj (walkKeys action vals keys m)) p = some (.obj m')
  | keys, m, [], _, _ => ⟨_, lookupPath_nil _⟩
  | [], _, q :: p, hp, _ => by simp at hp
  | [k], m, q :: p, hp, hne => by
    exfalso
    rw [List.cons_prefix_cons] at hp
    obtain ⟨rfl, hp⟩ := hp
    rw [List.prefix_nil] at hp
    exact hne (by rw [hp])
  | k :: k2 :: ks, m, q :: p, hp, hne => by
    rw [List.cons_prefix_cons] at hp
    obtain ⟨rfl, hp⟩ := hp
    rw [lookupPath_obj_cons, lookup_walkKeys_head]
    exact lookupPath_walkKeys_prefix action vals (k2 :: ks) (childMap m q) p hp
      (fun e => hne (by rw [e]))

/-- A walk changes nothing off its path. -/
theorem lookupPath_walkKeys_frame (action : String) (vals : JVal) :
    ∀ (keys : List String) (m : JMap) (p : List String), keys ≠ [] →
      ¬ p <+: keys → ¬ keys <+: p →
      lookupPath (.obj (walkKeys action vals keys m)) p = lookupPath (.obj m) p
  | [], _, _, hk, _, _ => absurd rfl hk
  | _ :: _, _, [], _, hp, _ => absurd List.nil_prefix hp
  | k :: ks, m, q :: p, _, hp, hkp => by
    by_cases hq : q = k
    · subst hq
      have hp' : ¬ p <+: ks := fun h => hp ((List.cons_prefix_cons).2 ⟨rfl, h⟩)
      have hkp' : ¬ ks <+: p := fun h => hkp ((List.cons_prefix_cons).2 ⟨rfl, h⟩)
      cases ks with
      | nil => exact absurd List.nil_prefix hkp'
      | cons k2 ks =>
        have hpne : p ≠ [] := fun e => hp' (e ▸ List.nil_prefix)
        rw [lookupPath_obj_cons, lookup_walkKeys_head]
        show lookupPath (.obj (walkKeys action vals (k2 :: ks) (childMap m q))) p = _
        rw [lookupPath_walkKeys_frame action vals (k2 :: ks) (childMap m q) p
          (List.cons_ne_nil _ _) hp' hkp']
        exact lookupPath_childMap m q p hpne
    · rw [lookupPath_obj_cons, lookupPath_obj_cons, lookup_walkKeys_ne action vals hq]

/-- A delete walk leaves the parent of the leaf as a map without the leaf key. -/
theorem lookupPath_walkKeys_delete (vals : JVal) :
    ∀ (init : List String) (leaf : String) (m : JMap),
      ∃ parent, lookupPath (.obj (walkKeys "delete" vals (init ++ [leaf]) m)) init
          = some (.obj parent) ∧ parent.lookup leaf = none
  | [], leaf, m => by
    refine ⟨_, lookupPath_nil _, ?_⟩
    show (walkKeys "delete" vals [leaf] m).lookup leaf = none
    rw [walkKeys_single, if_pos rfl, JMap.lookup_erase_self]
  | k :: init, leaf, m => by
    obtain ⟨k2, ks, hks⟩ := List.exists_cons_of_ne_nil
      (l := init ++ [leaf]) (by simp)
    obtain ⟨parent, h1, h2⟩ := lookupPath_walkKeys_delete vals init leaf (childMap m k)
    refine ⟨parent, ?_, h2⟩
    rw [List.cons_append, lookupPath_obj_cons, hks, lookup_walkKeys_head, ← hks]
    exact h1

/-! ## Lemmas on splitting -/

theorem splitChars_ne_nil (sep : Char) : ∀ cs, splitChars sep cs ≠ []
  | [] => by simp [splitChars]
  | c :: cs => by
    unfold splitChars
    split
    · simp
    · split <;> simp

theorem splitChars_of_not_mem (sep : Char) : ∀ cs, sep ∉ cs → splitChars sep cs = [cs]
  | [], _ => rfl
  | c :: cs, h => by
    have hc : c ≠ sep := fun e => h (by simp [e])
    have hcs : sep ∉ cs := fun e => h (by simp [e])
    unfold splitChars
    rw [if_neg hc, splitChars_of_not_mem sep cs hcs]

theorem two_le_length_splitChars (sep : Char) :
    ∀ cs, sep ∈ cs → 2 ≤ (splitChars sep cs).length
  | [], h => by simp at h
  | c :: cs, h => by
    unfold splitChars
    by_cases hc : c = sep
    · rw [if_pos hc]
      have := List.length_pos.2 (splitChars_ne_nil sep cs)
      simp only [List.length_cons]
      omega
    · rw [if_neg hc]
      have hcs : sep ∈ cs := by
        rcases List.mem_cons.1 h with e | e
        · exact absurd e.symm hc
        · exact e
      have ih := two_le_length_splitChars sep cs hcs
      cases hs : splitChars sep cs with
      | nil => rw [hs] at ih; simp at ih
      | cons piece pieces => rw [hs] at ih; simpa using ih

theorem splitChars_eq_empty_piece (sep : Char) :
    ∀ cs, splitChars sep cs = [[]] → cs = []
  | [], _ => rfl
  | c :: cs, h => by
    exfalso
    unfold splitChars at h
    by_cases hc : c = sep
    · rw [if_pos hc] at h
      exact splitChars_ne_nil sep cs (List.cons.inj h).2
    · rw [if_neg hc] at h
      cases hs : splitChars sep cs with
      | nil => rw [hs] at h; simp at h
      | cons piece pieces => rw [hs] at h; simp at h

theorem Split_of_not_contains (s : String) (sep : Char) (h : Contains s sep = false) :
    Split s sep = [s] := by
  have hmem : sep ∉ s.data := by
    intro hm
    have : Contains s sep = true := by simpa [Contains] using hm
    rw [h] at this
    exact Bool.noConfusion this
  unfold Split
  rw [splitChars_of_not_mem sep s.data hmem]
  rfl

theorem two_le_length_Split (s : String) (sep : Char) (h : Contains s sep = true) :
    2 ≤ (Split s sep).length := by
  have hmem : sep ∈ s.data := by simpa [Contains] using h
  unfold Split
  rw [List.length_map]
  exact two_le_length_splitChars sep s.data hmem

theorem eq_empty_of_Split (s : String) (sep : Char) (h : Split s sep = [""]) : s = "" := by
  unfold Split at h
  have hl : (splitChars sep s.data).length = 1 := by
    have := congrArg List.length h
    simpa using this
  match hs : splitChars sep s.data, hl with
  | [piece], _ =>
    rw [hs] at h
    have hp : String.mk piece = "" := by simpa using h
    have hp' : piece = [] := by
      have := congrArg String.data hp
      simpa using this
    subst hp'
    have := splitChars_eq_empty_piece sep s.data hs
    exact String.ext this

/-- With two segments or more `update` runs the walk of lines 236-260. -/
theorem update_eq_walkKeys (unmarshal : String → Option JVal) (data : JMap) (v : KeyValue)
    (action stripPrefix : String)
    (h : 2 ≤ (Split (stripKey v.Key stripPrefix) '/').length) :
    update unmarshal data v action stripPrefix =
      walkKeys action (decodeValue unmarshal v.Value)
        (Split (stripKey v.Key stripPrefix) '/') data := by
  cases hc : Contains (stripKey v.Key stripPrefix) '/' with
  | true => simp [update, hc]
  | false =>
    rw [Split_of_not_contains _ _ hc] at h
    simp at h

/-- With one segment `update` runs the branch of lines 215-233. -/
theorem update_single (unmarshal : String → Option JVal) (data : JMap) (v : KeyValue)
    (action stripPrefix : String)
    (h : (Split (stripKey v.Key stripPrefix) '/').length < 2) :
    update unmarshal data v action stripPrefix =
      if action = "delete" then .nil
      else if stripKey v.Key stripPrefix = "" then
        match decodeValue unmarshal v.Value with
        | .obj m => m
        | _ => data
      else data.insert (stripKey v.Key stripPrefix) (decodeValue unmarshal v.Value) := by
  cases hc : Contains (stripKey v.Key stripPrefix) '/' with
  | true =>
    have := two_le_length_Split _ _ hc
    omega
  | false =>
    simp [update, hc, Split_of_not_contains _ _ hc]

/-! ## Path-tree builder: put and delete -/

/-- C2: for every tree, strip prefix and key whose stripped path has two or
more segments (`init ++ [leaf]` with `init` non-empty), a put followed by a
delete of the same key leaves a tree in which the parent path `init` holds a
map and that map has no entry for `leaf`. -/
theorem update_put_then_delete (unmarshal : String → Option JVal) (t : JMap)
    (stripPrefix key v1 v2 : String) (init : List String) (leaf : String)
    (hkeys : Split (stripKey key stripPrefix) '/' = init ++ [leaf]) (hinit : init ≠ []) :
    ∃ parent,
      lookupPath
          (.obj (update unmarshal (update unmarshal t ⟨key, v1⟩ "put" stripPrefix)
            ⟨key, v2⟩ "delete" stripPrefix)) init = some (.obj parent)
        ∧ parent.lookup leaf = none := by
  have hlen : 2 ≤ (Split (stripKey key stripPrefix) '/').length := by
    rw [hkeys, List.length_append]
    have := List.length_pos.2 hinit
    simp only [List.length_singleton]
    omega
  rw [update_eq_walkKeys unmarshal _ ⟨key, v2⟩ "delete" stripPrefix hlen]
  show ∃ parent, lookupPath (.obj (walkKeys "delete" _
    (Split (stripKey key stripPrefix) '/') _)) init = some (.obj parent) ∧ _
  rw [hkeys]
  exact lookupPath_walkKeys_delete _ init leaf _

/-- C2, at the concrete input of the specification: put `/a/b` = 1 and then delete
`/a/b` on the empty tree gives `{a: {}}`. -/
theorem update_put_then_delete_witness :
    (Split (stripKey "/a/b" "") '/' = ["a"] ++ ["b"] ∧ ["a"] ≠ ([] : List String))
      ∧ (∃ parent,
          lookupPath
              (.obj (update sampleUnmarshal (update sampleUnmarshal .nil ⟨"/a/b", "1"⟩ "put" "")
                ⟨"/a/b", ""⟩ "delete" "")) ["a"] = some (.obj parent)
            ∧ parent.lookup "b" = none)
      ∧ update sampleUnmarshal (update sampleUnmarshal .nil ⟨"/a/b", "1"⟩ "put" "")
          ⟨"/a/b", ""⟩ "delete" "" = .cons "a" (.obj .nil) .nil :=
  ⟨⟨rfl, by simp⟩,
    update_put_then_delete sampleUnmarshal .nil "" "/a/b" "1" "" ["a"] "b" rfl (by simp),
    rfl⟩

/-- C3: for every tree, strip prefix and key whose stripped path consists of
non-empty segments, a put (any action other than delete, so also insert) leaves a
tree in which walking the segments reaches the decoded value, every proper
prefix of the path ends at a map, and every path that neither lies on the
written path nor below it reads what it read in the tree before. -/
theorem update_put_spec (unmarshal : String → Option JVal) (t : JMap)
    (stripPrefix key value action : String)
    (hact : action = "put" ∨ action = "insert")
    (hseg : ∀ k ∈ Split (stripKey key stripPrefix) '/', k ≠ "") :
    lookupPath (.obj (update unmarshal t ⟨key, value⟩ action stripPrefix))
        (Split (stripKey key stripPrefix) '/') = some (decodeValue unmarshal value)
      ∧ (∀ p, p <+: Split (stripKey key stripPrefix) '/' →
          p ≠ Split (stripKey key stripPrefix) '/' →
          ∃ m, lookupPath (.obj (update unmarshal t ⟨key, value⟩ action stripPrefix)) p
            = some (.obj m))
      ∧ (∀ p, ¬ p <+: Split (stripKey key stripPrefix) '/' →
          ¬ Split (stripKey key stripPrefix) '/' <+: p →
          lookupPath (.obj (update unmarshal t ⟨key, value⟩ action stripPrefix)) p
            = lookupPath (.obj t) p) := by
  have hdel : action ≠ "delete" := by
    rcases hact with h | h <;> rw [h] <;> decide
  cases hc : Contains (stripKey key stripPrefix) '/' with
  | true =>
    have hlen := two_le_length_Split _ _ hc
    have hne : Split (stripKey key stripPrefix) '/' ≠ [] := by
      intro e
      rw [e] at hlen
      simp at hlen
    rw [update_eq_walkKeys unmarshal t ⟨key, value⟩ action stripPrefix hlen]
    exact ⟨lookupPath_walkKeys_put action _ hdel _ t hne,
      fun p hp hpne => lookupPath_walkKeys_prefix action _ _ t p hp hpne,
      fun p hp hkp => lookupPath_walkKeys_frame action _ _ t p hne hp hkp⟩
  | false =>
    have hs := Split_of_not_contains _ _ hc
    have hkey : stripKey key stripPrefix ≠ "" := hseg _ (by rw [hs]; simp)
    have hlt : (Split (stripKey (KeyValue.mk key value).Key stripPrefix) '/').length < 2 := by
      show (Split (stripKey key stripPrefix) '/').length < 2
      rw [hs]
      simp
    rw [update_single unmarshal t ⟨key, value⟩ action stripPrefix hlt, if_neg hdel]
    show lookupPath (.obj (if stripKey key stripPrefix = "" then _ else _)) _ = _ ∧ _
    rw [if_neg hkey, hs]
    refine ⟨?_, ?_, ?_⟩
    · rw [lookupPath_obj_cons, JMap.lookup_insert_self]
      exact lookupPath_nil _
    · intro p hp hpne
      cases p with
      | nil => exact ⟨_, lookupPath_nil _⟩
      | cons q p =>
        exfalso
        rw [List.cons_prefix_cons] at hp
        obtain ⟨rfl, hp⟩ := hp
        rw [List.prefix_nil] at hp
        exact hpne (by rw [hp])
    · intro p hp hkp
      cases p with
      | nil => exact absurd List.nil_prefix hp
      | cons q p =>
        have hq : q ≠ stripKey key stripPrefix := by
          intro e
          exact hkp ((List.cons_prefix_cons).2 ⟨e.symm, List.nil_prefix⟩)
        rw [lookupPath_obj_cons, lookupPath_obj_cons, JMap.lookup_insert_ne hq]

/-- C3, at a concrete input: put `/cfg/a/b` = 1 under prefix `/cfg` on the tree
`{a: 5, z: 5}` overwrites the number under `a` by a map and keeps `z`. -/
theorem update_put_spec_witness :
    (("put" = "put" ∨ "put" = "insert") ∧ ∀ k ∈ Split (stripKey "/cfg/a/b" "/cfg") '/', k ≠ "")
      ∧ lookupPath
          (.obj (update sampleUnmarshal (.cons "a" (.num "5") (.cons "z" (.num "5") .nil))
            ⟨"/cfg/a/b", "1"⟩ "put" "/cfg")) ["a", "b"] = some (.num "1")
      ∧ lookupPath
          (.obj (update sampleUnmarshal (.cons "a" (.num "5") (.cons "z" (.num "5") .nil))
            ⟨"/cfg/a/b", "1"⟩ "put" "/cfg")) ["z"] = some (.num "5") :=
  have hseg : ∀ k ∈ Split (stripKey "/cfg/a/b" "/cfg") '/', k ≠ "" := by
    intro k hk
    have hk' : k ∈ ["a", "b"] := hk
    simp only [List.mem_cons, List.mem_singleton, List.not_mem_nil, or_false] at hk'
    rcases hk' with rfl | rfl <;> decide
  have h := update_put_spec sampleUnmarshal (.cons "a" (.num "5") (.cons "z" (.num "5") .nil))
    "/cfg" "/cfg/a/b" "1" "put" (Or.inl rfl) hseg
  ⟨⟨Or.inl rfl, hseg⟩, h.1, rfl⟩

/-- With two segments or more a delete removes the leaf from its parent map,
keeps the parent as a map and changes nothing off the deleted path. -/
theorem update_delete_nested (unmarshal : String → Option JVal) (t : JMap)
    (stripPrefix key value : String) (init : List String) (leaf : String)
    (hkeys : Split (stripKey key stripPrefix) '/' = init ++ [leaf]) (hinit : init ≠ []) :
    (∃ parent,
        lookupPath (.obj (update unmarshal t ⟨key, value⟩ "delete" stripPrefix)) init
          = some (.obj parent) ∧ parent.lookup leaf = none)
      ∧ (∀ p, ¬ p <+: init ++ [leaf] → ¬ init ++ [leaf] <+: p →
          lookupPath (.obj (update unmarshal t ⟨key, value⟩ "delete" stripPrefix)) p
            = lookupPath (.obj t) p) := by
  have hlen : 2 ≤ (Split (stripKey key stripPrefix) '/').length := by
    rw [hkeys, List.length_append]
    have := List.length_pos.2 hinit
    simp only [List.length_singleton]
    omega
  rw [update_eq_walkKeys unmarshal t ⟨key, value⟩ "delete" stripPrefix hlen]
  show (∃ parent, lookupPath (.obj (walkKeys "delete" _
    (Split (stripKey key stripPrefix) '/') _)) init = some (.obj parent) ∧ _) ∧ _
  rw [hkeys]
  exact ⟨lookupPath_walkKeys_delete _ init leaf t,
    fun p hp hkp => lookupPath_walkKeys_frame "delete" _ _ t p (by simp) hp hkp⟩

/-- With a single segment a delete returns the empty map, whatever the key. -/
theorem update_delete_single (unmarshal : String → Option JVal) (t : JMap)
    (stripPrefix key value : String)
    (h : (Split (stripKey key stripPrefix) '/').length < 2) :
    update unmarshal t ⟨key, value⟩ "delete" stripPrefix = .nil := by
  rw [update_single unmarshal t ⟨key, value⟩ "delete" stripPrefix h, if_pos rfl]

/-- C4: at the tree `{a: 1, b: 1}` a delete of the one-segment key `/cfg/a`
under prefix `/cfg` returns the empty map: the sibling `b`, which the
tree held before, is gone with it. -/
theorem update_delete_single_segment_clears_tree :
    Split (stripKey "/cfg/a" "/cfg") '/' = ["a"]
      ∧ lookupPath (.obj (.cons "a" (.num "1") (.cons "b" (.num "1") .nil))) ["b"]
          = some (.num "1")
      ∧ update sampleUnmarshal (.cons "a" (.num "1") (.cons "b" (.num "1") .nil))
          ⟨"/cfg/a", ""⟩ "delete" "/cfg" = .nil
      ∧ lookupPath
          (.obj (update sampleUnmarshal (.cons "a" (.num "1") (.cons "b" (.num "1") .nil))
            ⟨"/cfg/a", ""⟩ "delete" "/cfg")) ["b"] = none :=
  ⟨rfl, rfl, rfl, rfl⟩

theorem stripKey_self (stripPrefix : String) : stripKey stripPrefix stripPrefix = "" := by
  have h : TrimPrefix stripPrefix stripPrefix = "" := by
    unfold TrimPrefix
    rw [if_pos (by simp), List.drop_length]
  unfold stripKey
  rw [h]
  rfl

theorem stripKey_self_slash (stripPrefix : String) :
    stripKey (stripPrefix ++ "/") stripPrefix = "" := by
  have h : TrimPrefix (stripPrefix ++ "/") stripPrefix = "/" := by
    unfold TrimPrefix
    rw [if_pos (by simp [String.data_append])]
    simp [String.data_append]
  unfold stripKey
  rw [h]
  rfl

/-- C5, refuted as stated: a put at the empty path whose value decodes to the
number 5 does not replace the tree `{a: 1}` by the decoded value; the tree is
returned as it was. -/
theorem update_put_root_not_object :
    Split (stripKey "" "") '/' = [""]
      ∧ JVal.obj (update sampleUnmarshal (.cons "a" (.num "1") .nil) ⟨"", "5"⟩ "put" "")
          ≠ decodeValue sampleUnmarshal "5"
      ∧ update sampleUnmarshal (.cons "a" (.num "1") .nil) ⟨"", "5"⟩ "put" ""
          = .cons "a" (.num "1") .nil :=
  ⟨rfl, fun h => JVal.noConfusion h, rfl⟩

/-- C5, amended: for every tree and every key whose stripped path is the
single empty segment, a put (or insert) whose value decodes to a JSON object
returns exactly that object, whatever the tree was; a value that decodes to
anything else (or does not decode) leaves the tree as it was. -/
theorem update_put_root (unmarshal : String → Option JVal) (t : JMap)
    (stripPrefix key value action : String)
    (hact : action = "put" ∨ action = "insert")
    (hkey : Split (stripKey key stripPrefix) '/' = [""]) :
    (∀ m, decodeValue unmarshal value = .obj m →
        update unmarshal t ⟨key, value⟩ action stripPrefix = m)
      ∧ ((∀ m, decodeValue unmarshal value ≠ .obj m) →
        update unmarshal t ⟨key, value⟩ action stripPrefix = t) := by
  have hdel : action ≠ "delete" := by
    rcases hact with h | h <;> rw [h] <;> decide
  have hempty : stripKey key stripPrefix = "" := eq_empty_of_Split _ _ hkey
  have hlt : (Split (stripKey (KeyValue.mk key value).Key stripPrefix) '/').length < 2 := by
    show (Split (stripKey key stripPrefix) '/').length < 2
    rw [hkey]
    simp
  rw [update_single unmarshal t ⟨key, value⟩ action stripPrefix hlt, if_neg hdel]
  show (∀ m, _ → (if stripKey key stripPrefix = "" then _ else _) = m)
    ∧ (_ → (if stripKey key stripPrefix = "" then _ else _) = t)
  rw [if_pos hempty]
  constructor
  · intro m hm
    show (match decodeValue unmarshal value with | .obj m => m | _ => t) = m
    rw [hm]
  · intro hno
    show (match decodeValue unmarshal value with | .obj m => m | _ => t) = t
    cases hv : decodeValue unmarshal value with
    | obj m => exact absurd hv (hno m)
    | null => rfl
    | bool b => rfl
    | num n => rfl
    | str s => rfl
    | arr a => rfl

/-- C5, at the concrete input of the specification: put at the empty path of
the value `{"k":1}` on the tree `{a: 1}` gives `{k: 1}`. -/
theorem update_put_root_witness :
    (("put" = "put" ∨ "put" = "insert") ∧ Split (stripKey "/cfg/" "/cfg") '/' = [""])
      ∧ update sampleUnmarshal (.cons "a" (.num "1") .nil) ⟨"/cfg/", "\x7b\"k\":1\x7d"⟩ "put" "/cfg"
          = .cons "k" (.num "1") .nil :=
  ⟨⟨Or.inl rfl, rfl⟩,
    (update_put_root sampleUnmarshal (.cons "a" (.num "1") .nil) "/cfg" "/cfg/"
      "\x7b\"k\":1\x7d" "put" (Or.inl rfl) rfl).1 _ rfl⟩

/-! ## Refresh orchestrator -/

theorem loadAll_map_ok (ss : List Snapshot) : loadAll (ss.map Except.ok) = .ok ss := by
  induction ss with
  | nil => rfl
  | cons s ss ih => simp [loadAll, ih]

theorem loadAll_first_error (oks : List Snapshot) (e : GoError)
    (rest : List (Except GoError Snapshot)) :
    loadAll (oks.map Except.ok ++ Except.error e :: rest) = .error e := by
  induction oks with
  | nil => rfl
  | cons s ss ih => simp [loadAll, ih]

theorem Snapshot.Checksum_of_coherent (cksum : String → String) (s : Snapshot)
    (h : s.Coherent cksum) : s.Checksum cksum = cksum s.Data := by
  unfold Snapshot.Checksum
  rcases h with h | h
  · rw [if_pos h]
  · by_cases he : s.checksum = ""
    · rw [if_pos he]
    · rw [if_neg he, h]

theorem checksumsDiffer_eq_false (cksum : String → String) :
    ∀ (old new : List Snapshot), old.length = new.length →
      (checksumsDiffer cksum old new = false ↔
        old.map (Snapshot.Checksum cksum) = new.map (Snapshot.Checksum cksum))
  | [], [], _ => by simp [checksumsDiffer]
  | [], _ :: _, h => by simp at h
  | _ :: _, [], h => by simp at h
  | a :: as, b :: bs, h => by
    have hlen : as.length = bs.length := by simpa using h
    have ih := checksumsDiffer_eq_false cksum as bs hlen
    by_cases hab : a.Checksum cksum = b.Checksum cksum
    · simp [checksumsDiffer, hab, ih]
    · simp [checksumsDiffer, hab]

/-- No change is declared exactly when the previous list is non-empty and the
two lists of checksums agree. -/
theorem isChanged_eq_false (cksum : String → String) (old new : List Snapshot) :
    isChanged cksum old new = false ↔
      old ≠ [] ∧ old.map (Snapshot.Checksum cksum) = new.map (Snapshot.Checksum cksum) := by
  unfold isChanged
  by_cases hlen : old.length = new.length
  · by_cases h0 : old = []
    · subst h0
      simp
    · have hpos : old.length ≠ 0 := fun e => h0 (List.length_eq_zero.1 e)
      have h1 : (old.length == 0) = false := by simpa using hpos
      have h2 : (old.length != new.length) = false := by simp [hlen]
      rw [h1, h2, if_neg (by simp), checksumsDiffer_eq_false cksum old new hlen]
      exact ⟨fun h => ⟨h0, h⟩, fun h => h.2⟩
  · have hmap : old.map (Snapshot.Checksum cksum) ≠ new.map (Snapshot.Checksum cksum) := by
      intro e
      have := congrArg List.length e
      simp at this
      exact hlen this
    simp [hlen, hmap]

theorem map_Checksum_of_data_eq (cksum : String → String) :
    ∀ (ss1 ss2 : List Snapshot), ss2.map Snapshot.Data = ss1.map Snapshot.Data →
      (∀ s ∈ ss1, s.Coherent cksum) → (∀ s ∈ ss2, s.Coherent cksum) →
      ss1.map (Snapshot.Checksum cksum) = ss2.map (Snapshot.Checksum cksum)
  | [], [], _, _, _ => rfl
  | [], _ :: _, h, _, _ => by simp at h
  | _ :: _, [], h, _, _ => by simp at h
  | a :: as, b :: bs, h, h1, h2 => by
    simp only [List.map_cons, List.cons.injEq] at h
    have ih := map_Checksum_of_data_eq cksum as bs h.2
      (fun s hs => h1 s (List.mem_cons_of_mem _ hs))
      (fun s hs => h2 s (List.mem_cons_of_mem _ hs))
    simp only [List.map_cons]
    rw [ih, Snapshot.Checksum_of_coherent cksum a (h1 a (List.mem_cons_self _ _)),
      Snapshot.Checksum_of_coherent cksum b (h2 b (List.mem_cons_self _ _)), h.1]

/-- A cycle that returns an error leaves the state as it was. -/
theorem readAndMergeConfigs_state_of_error {V : Type} (opts : Options V)
    (cksum : String → String) (c : config V) (loads : List (Except GoError Snapshot))
    (e : GoError) (h : (readAndMergeConfigs opts cksum c loads).1 = some e) :
    (readAndMergeConfigs opts cksum c loads).2 = c := by
  unfold readAndMergeConfigs at h ⊢
  cases hl : loadAll loads with
  | error e1 => simp
  | ok snaps =>
    rw [hl] at h
    simp only at h ⊢
    by_cases hch : isChanged cksum c.snaps snaps = true
    · rw [if_pos hch] at h ⊢
      cases hm : opts.merger snaps with
      | error e1 => simp
      | ok snap =>
        rw [hm] at h
        simp only at h ⊢
        cases hr : opts.reader snap with
        | error e1 => simp
        | ok values =>
          rw [hr] at h
          simp at h
    · rw [if_neg hch]

/-- The state after a changed refresh. -/
theorem readAndMergeConfigs_of_changed {V : Type} (opts : Options V)
    (cksum : String → String) (c : config V) (loads : List (Except GoError Snapshot))
    (snaps : List Snapshot) (snap : Snapshot) (values : V)
    (hl : loadAll loads = .ok snaps) (hch : isChanged cksum c.snaps snaps = true)
    (hm : opts.merger snaps = .ok snap) (hr : opts.reader snap = .ok values) :
    readAndMergeConfigs opts cksum c loads =
      (none, { snaps := snaps, snap := some snap, values := some values,
               subscribers := notifyAll c.subscribers }) := by
  unfold readAndMergeConfigs
  rw [hl]
  simp only
  rw [if_pos hch, hm]
  simp only
  rw [hr]

/-- The state after a refresh that declares no change. -/
theorem readAndMergeConfigs_of_unchanged {V : Type} (opts : Options V)
    (cksum : String → String) (c : config V) (loads : List (Except GoError Snapshot))
    (snaps : List Snapshot)
    (hl : loadAll loads = .ok snaps) (hch : isChanged cksum c.snaps snaps = false) :
    readAndMergeConfigs opts cksum c loads = (none, c) := by
  unfold readAndMergeConfigs
  rw [hl]
  simp only
  rw [if_neg (by rw [hch]; exact Bool.false_ne_true)]

/-- C6, refuted as stated: with no registered source, a successful cycle
followed by a second one (every `Load`, there being none, is unchanged) declares
a change again and sends to a subscriber whose buffer was empty. -/
theorem readAndMergeConfigs_no_sources_notifies :
    (readAndMergeConfigs sampleOptions sampleChecksum emptyConfig []).1 = none
      ∧ (readAndMergeConfigs sampleOptions sampleChecksum
          { (readAndMergeConfigs sampleOptions sampleChecksum emptyConfig []).2 with
            subscribers := [Chan.make 1] } []).2.subscribers = [{ cap := 1, len := 1 }]
      ∧ readAndMergeConfigs sampleOptions sampleChecksum
          { (readAndMergeConfigs sampleOptions sampleChecksum emptyConfig []).2 with
            subscribers := [Chan.make 1] } []
        ≠ (none, { (readAndMergeConfigs sampleOptions sampleChecksum emptyConfig []).2 with
            subscribers := [Chan.make 1] }) :=
  ⟨rfl, rfl, fun h => by
    have h2 := congrArg (fun r => (r.2.subscribers.map Chan.len)) h
    exact absurd h2 (by decide)⟩

/-- C6, amended: with one registered source or more, in the state left by a
successful cycle over the snapshots `ss1` (whatever the subscribers are by
then), a further cycle whose loads `ss2` carry the same bytes position by
position declares no change: it returns no error and leaves the whole state,
subscriber buffers included, as it was. -/
theorem readAndMergeConfigs_identical_reload_noop {V : Type} (opts : Options V)
    (cksum : String → String) (c0 : config V) (subs : List Chan) (ss1 ss2 : List Snapshot)
    (hne : ss1 ≠ [])
    (hprev : (readAndMergeConfigs opts cksum c0 (ss1.map Except.ok)).1 = none)
    (hdata : ss2.map Snapshot.Data = ss1.map Snapshot.Data)
    (hc1 : ∀ s ∈ ss1, s.Coherent cksum) (hc2 : ∀ s ∈ ss2, s.Coherent cksum) :
    readAndMergeConfigs opts cksum
        { (readAndMergeConfigs opts cksum c0 (ss1.map Except.ok)).2 with subscribers := subs }
        (ss2.map Except.ok)
      = (none,
          { (readAndMergeConfigs opts cksum c0 (ss1.map Except.ok)).2 with
            subscribers := subs }) := by
  have hsame := map_Checksum_of_data_eq cksum ss1 ss2 hdata hc1 hc2
  have hsnaps : isChanged cksum
      (readAndMergeConfigs opts cksum c0 (ss1.map Except.ok)).2.snaps ss2 = false := by
    rw [isChanged_eq_false]
    cases hch : isChanged cksum c0.snaps ss1 with
    | true =>
      cases hm : opts.merger ss1 with
      | error e =>
        exfalso
        simp [readAndMergeConfigs, loadAll_map_ok, hch, hm] at hprev
      | ok snap =>
        cases hr : opts.reader snap with
        | error e =>
          exfalso
          simp [readAndMergeConfigs, loadAll_map_ok, hch, hm, hr] at hprev
        | ok values =>
          rw [readAndMergeConfigs_of_changed opts cksum c0 _ ss1 snap values
            (loadAll_map_ok ss1) hch hm hr]
          exact ⟨hne, hsame⟩
    | false =>
      rw [readAndMergeConfigs_of_unchanged opts cksum c0 _ ss1 (loadAll_map_ok ss1) hch]
      have h := (isChanged_eq_false cksum c0.snaps ss1).1 hch
      exact ⟨h.1, h.2.trans hsame⟩
  exact readAndMergeConfigs_of_unchanged opts cksum _ _ ss2 (loadAll_map_ok ss2) hsnaps

/-- C6, at a concrete input: one source that returns the bytes `a` twice; the
second cycle leaves the state, with a waiting subscriber, as it was. -/
theorem readAndMergeConfigs_identical_reload_noop_witness :
    ([({ Data := "a" } : Snapshot)] ≠ []
        ∧ (readAndMergeConfigs sampleOptions sampleChecksum emptyConfig
            ([({ Data := "a" } : Snapshot)].map Except.ok)).1 = none)
      ∧ readAndMergeConfigs sampleOptions sampleChecksum
          { (readAndMergeConfigs sampleOptions sampleChecksum emptyConfig
              ([({ Data := "a" } : Snapshot)].map Except.ok)).2 with
            subscribers := [Chan.make 1] }
          ([({ Data := "a", checksum := "md5:a" } : Snapshot)].map Except.ok)
        = (none,
            { (readAndMergeConfigs sampleOptions sampleChecksum emptyConfig
                ([({ Data := "a" } : Snapshot)].map Except.ok)).2 with
              subscribers := [Chan.make 1] }) :=
  ⟨⟨by simp, rfl⟩,
    readAndMergeConfigs_identical_reload_noop sampleOptions sampleChecksum emptyConfig
      [Chan.make 1] [{ Data := "a" }] [{ Data := "a", checksum := "md5:a" }]
      (by simp) rfl rfl
      (by
        intro s hs
        rw [List.mem_singleton] at hs
        subst hs
        exact Or.inl rfl)
      (by
        intro s hs
        rw [List.mem_singleton] at hs
        subst hs
        exact Or.inr rfl)⟩

/-- The bound every subscriber channel obeys: capacity one, at most one item. -/
theorem Chan.trySend_bound (ch : Chan) (h : ch.cap = 1 ∧ ch.len ≤ 1) :
    ch.trySend.cap = 1 ∧ ch.trySend.len ≤ 1 := by
  unfold Chan.trySend
  split
  · refine ⟨h.1, ?_⟩
    show ch.len + 1 ≤ 1
    omega
  · exact h

theorem Chan.receive_bound (ch : Chan) (h : ch.cap = 1 ∧ ch.len ≤ 1) :
    ch.receive.cap = 1 ∧ ch.receive.len ≤ 1 := by
  unfold Chan.receive
  split
  · refine ⟨h.1, ?_⟩
    show ch.len - 1 ≤ 1
    omega
  · exact h

theorem Chan.trySend_of_full (ch : Chan) (h : ch.len = ch.cap) : ch.trySend = ch := by
  unfold Chan.trySend
  rw [if_neg (by omega)]

theorem Chan.trySend_twice (ch : Chan) (h : ch.cap = 1 ∧ ch.len ≤ 1) :
    ch.trySend.trySend = { cap := 1, len := 1 } := by
  obtain ⟨cap, len⟩ := ch
  obtain ⟨hcap, hlen⟩ := h
  simp only at hcap hlen
  subst hcap
  have hcases : len = 0 ∨ len = 1 := by omega
  rcases hcases with rfl | rfl <;> rfl

theorem receiveNth_bound :
    ∀ (i : Nat) (subs : List Chan), (∀ ch ∈ subs, ch.cap = 1 ∧ ch.len ≤ 1) →
      ∀ ch ∈ receiveNth i subs, ch.cap = 1 ∧ ch.len ≤ 1
  | _, [], _, ch, hch => by simp [receiveNth] at hch
  | 0, a :: rest, h, ch, hch => by
    simp only [receiveNth, List.mem_cons] at hch
    rcases hch with rfl | hch
    · exact Chan.receive_bound a (h a (List.mem_cons_self _ _))
    · exact h ch (List.mem_cons_of_mem _ hch)
  | i + 1, a :: rest, h, ch, hch => by
    simp only [receiveNth, List.mem_cons] at hch
    rcases hch with rfl | hch
    · exact h ch (List.mem_cons_self _ _)
    · exact receiveNth_bound i rest (fun x hx => h x (List.mem_cons_of_mem _ hx)) ch hch

theorem notifyAll_bound (subs : List Chan) (h : ∀ ch ∈ subs, ch.cap = 1 ∧ ch.len ≤ 1) :
    ∀ ch ∈ notifyAll subs, ch.cap = 1 ∧ ch.len ≤ 1 := by
  intro ch hch
  unfold notifyAll at hch
  obtain ⟨a, ha, rfl⟩ := List.mem_map.1 hch
  exact Chan.trySend_bound a (h a ha)

/-- A cycle leaves the subscriber list as it was or sends to each once. -/
theorem readAndMergeConfigs_subscribers {V : Type} (opts : Options V)
    (cksum : String → String) (c : config V) (loads : List (Except GoError Snapshot)) :
    (readAndMergeConfigs opts cksum c loads).2.subscribers = c.subscribers
      ∨ (readAndMergeConfigs opts cksum c loads).2.subscribers = notifyAll c.subscribers := by
  unfold readAndMergeConfigs
  cases loadAll loads with
  | error e => exact Or.inl rfl
  | ok snaps =>
    simp only
    by_cases hch : isChanged cksum c.snaps snaps = true
    · rw [if_pos hch]
      cases opts.merger snaps with
      | error e => exact Or.inl rfl
      | ok snap =>
        simp only
        cases opts.reader snap with
        | error e => exact Or.inl rfl
        | ok values => exact Or.inr rfl
    · rw [if_neg hch]
      exact Or.inl rfl

theorem step_bound {V : Type} (opts : Options V) (cksum : String → String) (c : config V)
    (ev : Event) (h : ∀ ch ∈ c.subscribers, ch.cap = 1 ∧ ch.len ≤ 1) :
    ∀ ch ∈ (step opts cksum c ev).subscribers, ch.cap = 1 ∧ ch.len ≤ 1 := by
  cases ev with
  | subscribe =>
    intro ch hch
    simp only [step, Subscribe, List.mem_append, List.mem_singleton] at hch
    rcases hch with hch | rfl
    · exact h ch hch
    · exact ⟨rfl, Nat.zero_le _⟩
  | refresh loads =>
    intro ch hch
    simp only [step] at hch
    rcases readAndMergeConfigs_subscribers opts cksum c loads with e | e
    · rw [e] at hch
      exact h ch hch
    · rw [e] at hch
      exact notifyAll_bound c.subscribers h ch hch
  | read i =>
    intro ch hch
    exact receiveNth_bound i c.subscribers h ch hch

theorem run_bound {V : Type} (opts : Options V) (cksum : String → String) :
    ∀ (events : List Event) (c : config V),
      (∀ ch ∈ c.subscribers, ch.cap = 1 ∧ ch.len ≤ 1) →
      ∀ ch ∈ (run opts cksum c events).subscribers, ch.cap = 1 ∧ ch.len ≤ 1
  | [], _, h => h
  | ev :: events, c, h =>
    run_bound opts cksum events (step opts cksum c ev) (step_bound opts cksum c ev h)

theorem subscribers_of_changed {V : Type} (opts : Options V) (cksum : String → String)
    (c : config V) (loads : List (Except GoError Snapshot))
    (h : ChangedRefresh opts cksum c loads) :
    (readAndMergeConfigs opts cksum c loads).1 = none
      ∧ (readAndMergeConfigs opts cksum c loads).2.subscribers = notifyAll c.subscribers := by
  obtain ⟨snaps, snap, values, hl, hch, hm, hr⟩ := h
  rw [readAndMergeConfigs_of_changed opts cksum c loads snaps snap values hl hch hm hr]
  exact ⟨rfl, rfl⟩

/-- C7: start from a state without subscribers and apply any sequence of
`Subscribe` calls, refresh cycles and subscriber reads.  In the state reached
every subscriber channel has capacity one and holds at most one notification;
a changed refresh from there completes without error and leaves a full buffer
as it was; and after two changed refreshes in a row, with no read in between,
every subscriber holds exactly one notification. -/
theorem subscribers_at_most_one_pending {V : Type} (opts : Options V)
    (cksum : String → String) (c0 : config V) (events : List Event)
    (h0 : c0.subscribers = []) :
    (∀ ch ∈ (run opts cksum c0 events).subscribers, ch.cap = 1 ∧ ch.len ≤ 1)
      ∧ (∀ loads, ChangedRefresh opts cksum (run opts cksum c0 events) loads →
          (readAndMergeConfigs opts cksum (run opts cksum c0 events) loads).1 = none
            ∧ ∀ (i : Nat) (ch : Chan), (run opts cksum c0 events).subscribers[i]? = some ch →
                ch.len = ch.cap →
                (readAndMergeConfigs opts cksum (run opts cksum c0 events)
                  loads).2.subscribers[i]? = some ch)
      ∧ (∀ loads1 loads2, ChangedRefresh opts cksum (run opts cksum c0 events) loads1 →
          ChangedRefresh opts cksum
            (readAndMergeConfigs opts cksum (run opts cksum c0 events) loads1).2 loads2 →
          ∀ (i : Nat) (ch : Chan), (run opts cksum c0 events).subscribers[i]? = some ch →
            (readAndMergeConfigs opts cksum
              (readAndMergeConfigs opts cksum (run opts cksum c0 events) loads1).2
              loads2).2.subscribers[i]? = some ({ cap := 1, len := 1 } : Chan)) := by
  have hinv : ∀ ch ∈ (run opts cksum c0 events).subscribers, ch.cap = 1 ∧ ch.len ≤ 1 :=
    run_bound opts cksum events c0 (by rw [h0]; simp)
  refine ⟨hinv, ?_, ?_⟩
  · intro loads hch
    obtain ⟨hok, hsubs⟩ := subscribers_of_changed opts cksum _ loads hch
    refine ⟨hok, ?_⟩
    intro i ch hi hfull
    rw [hsubs]
    unfold notifyAll
    rw [List.getElem?_map, hi]
    show some ch.trySend = some ch
    rw [Chan.trySend_of_full ch hfull]
  · intro loads1 loads2 h1 h2 i ch hi
    obtain ⟨_, hsubs1⟩ := subscribers_of_changed opts cksum _ loads1 h1
    obtain ⟨_, hsubs2⟩ := subscribers_of_changed opts cksum _ loads2 h2
    rw [hsubs2, hsubs1]
    unfold notifyAll
    rw [List.getElem?_map, List.getElem?_map, hi]
    show some ch.trySend.trySend = some _
    rw [Chan.trySend_twice ch (hinv ch (List.getElem?_mem hi))]

/-- C7, at a concrete input: one subscriber, then two changed refreshes (the
source returns `a`, then `b`) with no read: one notification is buffered. -/
theorem subscribers_at_most_one_pending_witness :
    emptyConfig.subscribers = []
      ∧ (∀ ch ∈ (run sampleOptions sampleChecksum emptyConfig
            [Event.subscribe, Event.refresh [.ok { Data := "a" }],
              Event.refresh [.ok { Data := "b" }]]).subscribers, ch.cap = 1 ∧ ch.len ≤ 1)
      ∧ (run sampleOptions sampleChecksum emptyConfig
            [Event.subscribe, Event.refresh [.ok { Data := "a" }],
              Event.refresh [.ok { Data := "b" }]]).subscribers = [{ cap := 1, len := 1 }]
      ∧ (run sampleOptions sampleChecksum emptyConfig
            [Event.subscribe, Event.refresh [.ok { Data := "a" }],
              Event.refresh [.ok { Data := "b" }], Event.read 0]).subscribers
          = [{ cap := 1, len := 0 }] :=
  ⟨rfl,
    (subscribers_at_most_one_pending sampleOptions sampleChecksum emptyConfig
      [Event.subscribe, Event.refresh [.ok { Data := "a" }],
        Event.refresh [.ok { Data := "b" }]] rfl).1,
    rfl, rfl⟩

/-- C8: when a `Load` returns an error `e` (the sources before it having
loaded), or every `Load` succeeds, a change is declared and the merger returns
an error `e`, or the merger succeeds and the reader returns an error `e`, then
`readAndMergeConfigs` returns `e` and the state (snaps, snap, values and every
subscriber buffer) is as it was. -/
theorem readAndMergeConfigs_error_keeps_state {V : Type} (opts : Options V)
    (cksum : String → String) (c : config V) (loads : List (Except GoError Snapshot))
    (e : GoError)
    (h : (∃ (oks : List Snapshot) (rest : List (Except GoError Snapshot)),
          loads = oks.map Except.ok ++ Except.error e :: rest)
      ∨ (∃ snaps, loadAll loads = .ok snaps ∧ isChanged cksum c.snaps snaps = true
          ∧ opts.merger snaps = .error e)
      ∨ (∃ snaps snap, loadAll loads = .ok snaps ∧ isChanged cksum c.snaps snaps = true
          ∧ opts.merger snaps = .ok snap ∧ opts.reader snap = .error e)) :
    readAndMergeConfigs opts cksum c loads = (some e, c) := by
  rcases h with ⟨oks, rest, rfl⟩ | ⟨snaps, hl, hch, hm⟩ | ⟨snaps, snap, hl, hch, hm, hr⟩
  · unfold readAndMergeConfigs
    rw [loadAll_first_error]
  · unfold readAndMergeConfigs
    rw [hl]
    simp only
    rw [if_pos hch, hm]
  · unfold readAndMergeConfigs
    rw [hl]
    simp only
    rw [if_pos hch, hm]
    simp only
    rw [hr]

/-- C8, at concrete inputs: the second of two sources fails; and the merger
fails on a changed cycle.  Either way the error is returned and the state with
its subscriber is as it was. -/
theorem readAndMergeConfigs_error_keeps_state_witness :
    readAndMergeConfigs sampleOptions sampleChecksum
        { emptyConfig with subscribers := [Chan.make 1] }
        [.ok { Data := "a" }, .error "source not found: /cfg"]
      = (some "source not found: /cfg", { emptyConfig with subscribers := [Chan.make 1] })
      ∧ readAndMergeConfigs failingMergerOptions sampleChecksum
        { emptyConfig with subscribers := [Chan.make 1] } [.ok { Data := "a" }]
      = (some "merge failed", { emptyConfig with subscribers := [Chan.make 1] }) :=
  ⟨readAndMergeConfigs_error_keeps_state sampleOptions sampleChecksum _ _ _
      (Or.inl ⟨[{ Data := "a" }], [], rfl⟩),
    readAndMergeConfigs_error_keeps_state failingMergerOptions sampleChecksum _ _ _
      (Or.inr (Or.inl ⟨[{ Data := "a" }], rfl, rfl, rfl⟩))⟩

/-! ## Merge engine -/

theorem mergeEntry_none (held : Option JVal) : mergeEntry held none = held := by
  unfold mergeEntry
  split <;> simp_all

theorem deepMerge_cons (dst : JMap) (k : String) (v : JVal) (rest : JMap) :
    deepMerge dst (.cons k v rest) =
      (deepMerge dst rest).insert k (mergedValue (dst.lookup k) v) := by
  conv_lhs => unfold deepMerge
  unfold mergedValue
  cases hd : dst.lookup k with
  | none => rfl
  | some x => cases x <;> cases v <;> rfl

theorem mergeEntry_some (held : Option JVal) (v : JVal) :
    mergeEntry held (some v) = some (mergedValue held v) := by
  cases held with
  | none => rfl
  | some x => cases x <;> cases v <;> rfl

theorem deepMerge_cons_lookup_self (dst : JMap) (k : String) (v : JVal) (rest : JMap) :
    (deepMerge dst (.cons k v rest)).lookup k = mergeEntry (dst.lookup k) (some v) := by
  rw [deepMerge_cons, JMap.lookup_insert_self, mergeEntry_some]

theorem deepMerge_cons_lookup_ne (dst : JMap) {k k' : String} (h : k' ≠ k) (v : JVal)
    (rest : JMap) :
    (deepMerge dst (.cons k v rest)).lookup k' = (deepMerge dst rest).lookup k' := by
  rw [deepMerge_cons, JMap.lookup_insert_ne h]

/-- Under every key the merge holds what the deep override rule prescribes. -/
theorem lookup_deepMerge (dst : JMap) (k : String) :
    ∀ src : JMap, (deepMerge dst src).lookup k = mergeEntry (dst.lookup k) (src.lookup k) := by
  intro src
  induction src using JMap.entries_induction with
  | hnil =>
    show dst.lookup k = mergeEntry (dst.lookup k) none
    rw [mergeEntry_none]
  | hcons k' v rest ih =>
    by_cases h : k' = k
    · subst h
      rw [deepMerge_cons_lookup_self]
      simp [JMap.lookup]
    · rw [deepMerge_cons_lookup_ne dst (Ne.symm h), ih]
      simp [JMap.lookup, h]

theorem mergeEntry_none_left (incoming : Option JVal) : mergeEntry none incoming = incoming := by
  cases incoming <;> rfl

theorem lookupPath_pair (m : JMap) (x y : String) (v : JVal) :
    lookupPath (.obj m) [x, y] = some v ↔
      ∃ mx, m.lookup x = some (.obj mx) ∧ mx.lookup y = some v := by
  rw [lookupPath_obj_cons]
  cases hx : m.lookup x with
  | none => simp
  | some child =>
    cases child with
    | obj mx =>
      simp only [lookupPath_obj_cons]
      cases hy : mx.lookup y with
      | none => simp [hy]
      | some w => simp [hy, lookupPath_nil]
    | null => simp [lookupPath]
    | bool b => simp [lookupPath]
    | num n => simp [lookupPath]
    | str s => simp [lookupPath]
    | arr a => simp [lookupPath]

theorem mergeLoop_pair (unmarshalMap : String → Except GoError (Option JMap))
    (A B : Snapshot) (a b : JMap) (hA0 : A.Data ≠ "") (hB0 : B.Data ≠ "")
    (hA : unmarshalMap A.Data = .ok (some a)) (hB : unmarshalMap B.Data = .ok (some b)) :
    mergeLoop unmarshalMap none [some A, some B]
      = .ok (some (deepMerge (deepMerge .nil a) b)) := by
  simp [mergeLoop, hA0, hB0, hA, hB, mergoMap]

/-- C1: for snapshots `A` and `B` whose data decode to the JSON objects `a`
and `b`, `Merge(A, B)` returns the snapshot that encodes a document `doc` with:
under every key `doc` holds the recursive merge when both sides hold maps,
else the value of `b` when `b` has the key, else the value of `a`; the same rule
holds for the merge at every nesting level; if both define `x.y` the document
has at `x.y` the value of `b` (merged with that of `a` when both are maps); and
`x.z`, which only `a` defines, reads as in `a`. -/
theorem Merge_deep_override (unmarshalMap : String → Except GoError (Option JMap))
    (marshal : Option JMap → Except GoError String) (A B : Snapshot) (a b : JMap)
    (hA0 : A.Data ≠ "") (hB0 : B.Data ≠ "")
    (hA : unmarshalMap A.Data = .ok (some a)) (hB : unmarshalMap B.Data = .ok (some b)) :
    ∃ doc : JMap,
      Merge unmarshalMap marshal [some A, some B]
          = (match marshal (some doc) with
            | .error e => .error e
            | .ok bytes => .ok { Data := bytes })
        ∧ (∀ k, doc.lookup k = mergeEntry (a.lookup k) (b.lookup k))
        ∧ (∀ (dst src : JMap) (k : String),
            (deepMerge dst src).lookup k = mergeEntry (dst.lookup k) (src.lookup k))
        ∧ (∀ (x y : String) (va vb : JVal),
            lookupPath (.obj a) [x, y] = some va → lookupPath (.obj b) [x, y] = some vb →
            lookupPath (.obj doc) [x, y] = some (mergedValue (some va) vb)
              ∧ ((∀ m, va ≠ .obj m) ∨ (∀ m, vb ≠ .obj m) →
                  lookupPath (.obj doc) [x, y] = some vb))
        ∧ (∀ (x y z : String) (vb vz : JVal),
            lookupPath (.obj b) [x, y] = some vb → lookupPath (.obj b) [x, z] = none →
            lookupPath (.obj a) [x, z] = some vz →
            lookupPath (.obj doc) [x, z] = some vz) := by
  have hdoc : ∀ k, (deepMerge (deepMerge .nil a) b).lookup k
      = mergeEntry (a.lookup k) (b.lookup k) := by
    intro k
    rw [lookup_deepMerge, lookup_deepMerge]
    show mergeEntry (mergeEntry none (a.lookup k)) (b.lookup k) = _
    rw [mergeEntry_none_left]
  refine ⟨deepMerge (deepMerge .nil a) b, ?_, hdoc, fun dst src k => lookup_deepMerge dst k src,
    ?_, ?_⟩
  · unfold Merge
    rw [mergeLoop_pair unmarshalMap A B a b hA0 hB0 hA hB]
  · intro x y va vb ha hb
    obtain ⟨ax, hax, hay⟩ := (lookupPath_pair a x y va).1 ha
    obtain ⟨bx, hbx, hby⟩ := (lookupPath_pair b x y vb).1 hb
    have hx : (deepMerge (deepMerge .nil a) b).lookup x = some (.obj (deepMerge ax bx)) := by
      rw [hdoc, hax, hbx]
      rfl
    have hy : (deepMerge ax bx).lookup y = some (mergedValue (some va) vb) := by
      rw [lookup_deepMerge, hay, hby, mergeEntry_some]
    have hboth : lookupPath (.obj (deepMerge (deepMerge .nil a) b)) [x, y]
        = some (mergedValue (some va) vb) := (lookupPath_pair _ x y _).2 ⟨_, hx, hy⟩
    refine ⟨hboth, ?_⟩
    intro hleaf
    rw [hboth]
    rcases hleaf with hva | hvb
    · cases va with
      | obj m => exact absurd rfl (hva m)
      | null => rfl
      | bool c => rfl
      | num n => rfl
      | str s => rfl
      | arr l => rfl
    · cases vb with
      | obj m => exact absurd rfl (hvb m)
      | null => cases va <;> rfl
      | bool c => cases va <;> rfl
      | num n => cases va <;> rfl
      | str s => cases va <;> rfl
      | arr l => cases va <;> rfl
  · intro x y z vb vz hb hbz ha
    obtain ⟨ax, hax, haz⟩ := (lookupPath_pair a x z vz).1 ha
    obtain ⟨bx, hbx, _⟩ := (lookupPath_pair b x y vb).1 hb
    have hbz' : bx.lookup z = none := by
      rw [lookupPath_obj_cons, hbx] at hbz
      simp only [lookupPath_obj_cons] at hbz
      cases hz : bx.lookup z with
      | none => rfl
      | some w =>
        rw [hz] at hbz
        simp [lookupPath_nil] at hbz
    have hx : (deepMerge (deepMerge .nil a) b).lookup x = some (.obj (deepMerge ax bx)) := by
      rw [hdoc, hax, hbx]
      rfl
    have hzz : (deepMerge ax bx).lookup z = some vz := by
      rw [lookup_deepMerge, haz, hbz', mergeEntry_none]
    exact (lookupPath_pair _ x z _).2 ⟨_, hx, hzz⟩

/-- C1, at the concrete input of the specification: `A` is `{"x":{"y":1,"z":2}}`,
`B` is `{"x":{"y":3}}`; the merged snapshot is `{"x":{"y":3,"z":2}}`. -/
theorem Merge_deep_override_witness :
    (("\x7b\"x\":\x7b\"y\":1,\"z\":2\x7d\x7d" : String) ≠ ""
        ∧ ("\x7b\"x\":\x7b\"y\":3\x7d\x7d" : String) ≠ ""
        ∧ sampleUnmarshalMap "\x7b\"x\":\x7b\"y\":1,\"z\":2\x7d\x7d" = .ok (some sampleDocA)
        ∧ sampleUnmarshalMap "\x7b\"x\":\x7b\"y\":3\x7d\x7d" = .ok (some sampleDocB))
      ∧ (∃ doc : JMap,
          Merge sampleUnmarshalMap sampleMarshal
              [some { Data := "\x7b\"x\":\x7b\"y\":1,\"z\":2\x7d\x7d" },
                some { Data := "\x7b\"x\":\x7b\"y\":3\x7d\x7d" }]
            = (match sampleMarshal (some doc) with
              | .error e => .error e
              | .ok bytes => .ok { Data := bytes })
          ∧ lookupPath (.obj doc) ["x", "y"] = some (.num "3")
          ∧ lookupPath (.obj doc) ["x", "z"] = some (.num "2"))
      ∧ Merge sampleUnmarshalMap sampleMarshal
          [some { Data := "\x7b\"x\":\x7b\"y\":1,\"z\":2\x7d\x7d" },
            some { Data := "\x7b\"x\":\x7b\"y\":3\x7d\x7d" }]
        = .ok { Data := "\x7b\"x\":\x7b\"y\":3,\"z\":2\x7d\x7d" } := by
  refine ⟨⟨by decide, by decide, rfl, rfl⟩, ?_, rfl⟩
  obtain ⟨doc, hmerge, _, _, hxy, hxz⟩ :=
    Merge_deep_override sampleUnmarshalMap sampleMarshal
      { Data := "\x7b\"x\":\x7b\"y\":1,\"z\":2\x7d\x7d" }
      { Data := "\x7b\"x\":\x7b\"y\":3\x7d\x7d" } sampleDocA sampleDocB
      (by decide) (by decide) rfl rfl
  exact ⟨doc, hmerge,
    (hxy "x" "y" (.num "1") (.num "3") rfl rfl).2 (Or.inl (fun m h => JVal.noConfusion h)),
    hxz "x" "y" "z" (.num "3") (.num "2") rfl rfl rfl⟩

/-! ## Value accessor -/

theorem GetPath_null (branch : List String) : Json.GetPath .null branch = .null := by
  induction branch with
  | nil => rfl
  | cons k ks ih => exact ih

theorem GetPath_cons (data : JVal) (k : String) (ks : List String) :
    Json.GetPath data (k :: ks) = Json.GetPath (Json.Get data k) ks := rfl

/-- The handle `GetPath` returns wraps the value at the path, or nil when the
path is absent. -/
theorem GetPath_eq_lookupPath :
    ∀ (branch : List String) (data : JVal),
      Json.GetPath data branch = (lookupPath data branch).getD .null
  | [], data => by rw [lookupPath_nil]; rfl
  | k :: ks, data => by
    rw [GetPath_cons]
    cases data with
    | obj m =>
      rw [lookupPath_obj_cons]
      cases hk : m.lookup k with
      | none =>
        simp only [Json.Get, hk]
        exact GetPath_null ks
      | some val =>
        simp only [Json.Get, hk]
        exact GetPath_eq_lookupPath ks val
    | null => exact GetPath_null ks
    | bool b => exact GetPath_null ks
    | num n => exact GetPath_null ks
    | str s => exact GetPath_null ks
    | arr a => exact GetPath_null ks

/-- C9: for every document and every path that is absent from it, `Get`
returns the handle on nil, and `Bool`, `Int`, `String`, `Float64`, `Duration`,
`StringSlice` and `StringMap` on that handle each return the default they are
given. -/
theorem Get_absent_returns_defaults {F : Type} (lib : Lib F) (j : jsonValues)
    (path : List String) (habsent : lookupPath j.sj (resolvePath path) = none) :
    j.Get path = { data := .null }
      ∧ (∀ d : Bool, (j.Get path).Bool d = d)
      ∧ (∀ d : Int, (j.Get path).Int d = d)
      ∧ (∀ d : String, (j.Get path).String d = d)
      ∧ (∀ d : F, (j.Get path).Float64 lib d = d)
      ∧ (∀ d : Int, (j.Get path).Duration lib d = d)
      ∧ (∀ d : List String, (j.Get path).StringSlice d = d)
      ∧ (∀ d : List (String × String), (j.Get path).StringMap lib d = d) := by
  have hget : j.Get path = { data := .null } := by
    unfold jsonValues.Get
    rw [GetPath_eq_lookupPath, habsent]
    rfl
  rw [hget]
  exact ⟨rfl, fun _ => rfl, fun _ => rfl, fun _ => rfl, fun _ => rfl, fun _ => rfl,
    fun _ => rfl, fun _ => rfl⟩

/-- C9, at a concrete input: the document `{"x":{"y":1,"z":2}}` has no `x.w`. -/
theorem Get_absent_returns_defaults_witness :
    lookupPath (.obj sampleDocA) (resolvePath ["x.w"]) = none
      ∧ ((jsonValues.mk (.obj sampleDocA) { Data := "" }).Get ["x.w"]).Int 7 = 7
      ∧ ((jsonValues.mk (.obj sampleDocA) { Data := "" }).Get ["x.w"]).StringSlice ["a"]
          = ["a"] :=
  have h := Get_absent_returns_defaults sampleLib
    (jsonValues.mk (.obj sampleDocA) { Data := "" }) ["x.w"] rfl
  ⟨rfl, h.2.2.1 7, h.2.2.2.2.2.2.1 ["a"]⟩

/-- C10: on a string leaf `s`, `Int(d)` is the integer `Atoi` reads from `s`, or
`d` when `Atoi` fails, and `Bool(d)` is the boolean `ParseBool` reads from `s`, or
`d` when `ParseBool` fails; on a native boolean `b`, `Bool(d)` is `b` whatever `d`
is.  The string leaf `42` gives `Int(0) = 42` (and `4x`, which is no integer,
gives the default), native true gives `Bool(false) = true`. -/
theorem Int_Bool_fallback (s : String) :
    (∀ d : Int, (jsonValue.mk (.str s)).Int d = (Atoi s).getD d)
      ∧ (∀ d : Bool, (jsonValue.mk (.str s)).Bool d = (ParseBool s).getD d)
      ∧ (∀ (b d : Bool), (jsonValue.mk (.bool b)).Bool d = b)
      ∧ (Atoi "42" = some 42 ∧ Atoi "-7" = some (-7) ∧ Atoi "4x" = none ∧ Atoi "" = none)
      ∧ (jsonValue.mk (.str "42")).Int 0 = 42
      ∧ (jsonValue.mk (.str "4x")).Int 5 = 5
      ∧ (jsonValue.mk (.str "true")).Bool false = true
      ∧ (jsonValue.mk (.str "yes")).Bool false = false
      ∧ (jsonValue.mk (.bool true)).Bool false = true := by
  refine ⟨?_, ?_, fun _ _ => rfl, ⟨by decide, by decide, by decide, by decide⟩,
    by decide, by decide, by decide, by decide, rfl⟩
  · intro d
    show (match Atoi s with | none => d | some i => i) = (Atoi s).getD d
    cases Atoi s <;> rfl
  · intro d
    show (match ParseBool s with | none => d | some b => b) = (ParseBool s).getD d
    cases ParseBool s <;> rfl

/-! ## Comma-separated strings -/

theorem Contains_iff_two_le_length (s : String) (sep : Char) :
    Contains s sep = true ↔ 2 ≤ (Split s sep).length := by
  constructor
  · exact two_le_length_Split s sep
  · intro h
    cases hc : Contains s sep with
    | true => rfl
    | false =>
      rw [Split_of_not_contains s sep hc] at h
      simp at h

/-- C11, refuted as stated: on the string leaf `a`, which has no comma,
`StringSlice` returns the default and not the one-element list `[a]`. -/
theorem StringSlice_single_item_default :
    Split "a" ',' = ["a"]
      ∧ (jsonValue.mk (.str "a")).StringSlice ["d"] = ["d"]
      ∧ (jsonValue.mk (.str "a")).StringSlice ["d"] ≠ Split "a" ',' :=
  ⟨by decide, by decide, by decide⟩

/-- C11, amended: on a string leaf `s`, `StringSlice(d)` is the list of the
pieces of `s` between commas when `s` has a comma, and the default `d` when it
has none; on an array leaf it is the list of its items when each is a string or
nil and `d` otherwise; on every other leaf it is `d`. -/
theorem StringSlice_spec (d : List String) :
    (∀ s : String, (jsonValue.mk (.str s)).StringSlice d
        = if Contains s ',' = true then Split s ',' else d)
      ∧ (∀ items : JArr, (jsonValue.mk (.arr items)).StringSlice d
        = (stringItems items).getD d)
      ∧ (jsonValue.mk .null).StringSlice d = d
      ∧ (∀ b : Bool, (jsonValue.mk (.bool b)).StringSlice d = d)
      ∧ (∀ lit : String, (jsonValue.mk (.num lit)).StringSlice d = d)
      ∧ (∀ fields : JMap, (jsonValue.mk (.obj fields)).StringSlice d = d)
      ∧ (jsonValue.mk (.str "a,b")).StringSlice [] = ["a", "b"]
      ∧ (jsonValue.mk (.str "a,,b,")).StringSlice [] = ["a", "", "b", ""] := by
  refine ⟨?_, ?_, rfl, fun _ => rfl, fun _ => rfl, fun _ => rfl, by decide, by decide⟩
  · intro s
    show (if (Split s ',').length > 1 then Split s ',' else d) = _
    by_cases hc : Contains s ',' = true
    · have hlen : (Split s ',').length > 1 := (Contains_iff_two_le_length s ',').1 hc
      rw [if_pos hc, if_pos hlen]
    · have hlen : ¬ (Split s ',').length > 1 :=
        fun h => hc ((Contains_iff_two_le_length s ',').2 h)
      rw [if_neg hc, if_neg hlen]
  · intro items
    show (match stringItems items with | some a => a | none => d) = _
    cases stringItems items <;> rfl

/-! ## Values that do not decode -/

/-- A put at a non-empty stripped key leaves the decoded value at its path. -/
theorem lookupPath_update_of_put (unmarshal : String → Option JVal) (t : JMap)
    (stripPrefix key value action : String) (hdel : action ≠ "delete")
    (hkey : stripKey key stripPrefix ≠ "") :
    lookupPath (.obj (update unmarshal t ⟨key, value⟩ action stripPrefix))
        (Split (stripKey key stripPrefix) '/') = some (decodeValue unmarshal value) := by
  cases hc : Contains (stripKey key stripPrefix) '/' with
  | true =>
    have hlen := two_le_length_Split _ _ hc
    have hne : Split (stripKey key stripPrefix) '/' ≠ [] := by
      intro e
      rw [e] at hlen
      simp at hlen
    rw [update_eq_walkKeys unmarshal t ⟨key, value⟩ action stripPrefix hlen]
    exact lookupPath_walkKeys_put action _ hdel _ t hne
  | false =>
    have hs := Split_of_not_contains _ _ hc
    have hlt : (Split (stripKey (KeyValue.mk key value).Key stripPrefix) '/').length < 2 := by
      show (Split (stripKey key stripPrefix) '/').length < 2
      rw [hs]
      simp
    rw [update_single unmarshal t ⟨key, value⟩ action stripPrefix hlt, if_neg hdel]
    show lookupPath (.obj (if stripKey key stripPrefix = "" then _ else _)) _ = _
    rw [if_neg hkey, hs, lookupPath_obj_cons, JMap.lookup_insert_self]
    exact lookupPath_nil _

/-- C12, refuted as stated: under prefix `/cfg` a put of key `/cfg` (the empty
stripped path) stores nothing unless the value is a JSON object.  The value
`abc`, which does not decode, is not stored as a raw string, and the value `5`,
which decodes, is not stored as the decoded number: the tree `{a: 1}` comes back
as it was and holds nothing at the path. -/
theorem update_root_value_not_stored :
    Split (stripKey "/cfg" "/cfg") '/' = [""]
      ∧ sampleUnmarshal "abc" = none
      ∧ update sampleUnmarshal (.cons "a" (.num "1") .nil) ⟨"/cfg", "abc"⟩ "put" "/cfg"
          = .cons "a" (.num "1") .nil
      ∧ lookupPath
          (.obj (update sampleUnmarshal (.cons "a" (.num "1") .nil) ⟨"/cfg", "abc"⟩ "put" "/cfg"))
          (Split (stripKey "/cfg" "/cfg") '/') ≠ some (.str "abc")
      ∧ sampleUnmarshal "5" = some (.num "5")
      ∧ update sampleUnmarshal (.cons "a" (.num "1") .nil) ⟨"/cfg", "5"⟩ "put" "/cfg"
          = .cons "a" (.num "1") .nil
      ∧ lookupPath
          (.obj (update sampleUnmarshal (.cons "a" (.num "1") .nil) ⟨"/cfg", "5"⟩ "put" "/cfg"))
          (Split (stripKey "/cfg" "/cfg") '/') ≠ some (.num "5") :=
  have habc : lookupPath
      (.obj (update sampleUnmarshal (.cons "a" (.num "1") .nil) ⟨"/cfg", "abc"⟩ "put" "/cfg"))
      (Split (stripKey "/cfg" "/cfg") '/') = none := rfl
  have hfive : lookupPath
      (.obj (update sampleUnmarshal (.cons "a" (.num "1") .nil) ⟨"/cfg", "5"⟩ "put" "/cfg"))
      (Split (stripKey "/cfg" "/cfg") '/') = none := rfl
  ⟨rfl, rfl, rfl, fun h => Option.noConfusion (h.symm.trans habc),
    rfl, rfl, fun h => Option.noConfusion (h.symm.trans hfive)⟩

/-- C12, amended: for a put or insert at a key whose stripped path is not
empty, the leaf at the end of the path is the raw value as a string when the
value does not decode, and the decoded value when it does.  At the empty
stripped path a value that decodes to a JSON object becomes the tree, and any
other value, decoded or not, is not stored: the tree comes back as it was. -/
theorem update_put_stores_value (unmarshal : String → Option JVal) (t : JMap)
    (stripPrefix key value action : String)
    (hact : action = "put" ∨ action = "insert") :
    (stripKey key stripPrefix ≠ "" →
        (unmarshal value = none →
          lookupPath (.obj (update unmarshal t ⟨key, value⟩ action stripPrefix))
            (Split (stripKey key stripPrefix) '/') = some (.str value))
        ∧ (∀ v, unmarshal value = some v →
          lookupPath (.obj (update unmarshal t ⟨key, value⟩ action stripPrefix))
            (Split (stripKey key stripPrefix) '/') = some v))
      ∧ (stripKey key stripPrefix = "" →
        (unmarshal value = none →
          update unmarshal t ⟨key, value⟩ action stripPrefix = t)
        ∧ (∀ v, unmarshal value = some v → (∀ m, v ≠ .obj m) →
          update unmarshal t ⟨key, value⟩ action stripPrefix = t)
        ∧ (∀ m, unmarshal value = some (.obj m) →
          update unmarshal t ⟨key, value⟩ action stripPrefix = m)) := by
  have hdel : action ≠ "delete" := by
    rcases hact with h | h <;> rw [h] <;> decide
  constructor
  · intro hkey
    constructor
    · intro hnone
      rw [lookupPath_update_of_put unmarshal t stripPrefix key value action hdel hkey]
      unfold decodeValue
      rw [hnone]
    · intro v hsome
      rw [lookupPath_update_of_put unmarshal t stripPrefix key value action hdel hkey]
      unfold decodeValue
      rw [hsome]
  · intro hkey
    have hlt : (Split (stripKey (KeyValue.mk key value).Key stripPrefix) '/').length < 2 := by
      show (Split (stripKey key stripPrefix) '/').length < 2
      rw [hkey]
      decide
    have hroot : update unmarshal t ⟨key, value⟩ action stripPrefix
        = (match decodeValue unmarshal value with | .obj m => m | _ => t) := by
      rw [update_single unmarshal t ⟨key, value⟩ action stripPrefix hlt, if_neg hdel]
      show (if stripKey key stripPrefix = "" then _ else _) = _
      rw [if_pos hkey]
    rw [hroot]
    refine ⟨?_, ?_, ?_⟩
    · intro hnone
      unfold decodeValue
      rw [hnone]
    · intro v hsome hno
      unfold decodeValue
      rw [hsome]
      cases v with
      | obj m => exact absurd rfl (hno m)
      | null => rfl
      | bool b => rfl
      | num n => rfl
      | str s => rfl
      | arr a => rfl
    · intro m hsome
      unfold decodeValue
      rw [hsome]

/-- C12, at concrete inputs: under prefix `/cfg` the value `abc` of key
`/cfg/a/b` is no JSON and is stored as the string `abc`, the value `1` is stored
as the number 1, and the object `{"k":1}` put at key `/cfg` becomes the tree. -/
theorem update_put_stores_value_witness :
    ("put" = "put" ∨ "put" = "insert")
      ∧ (stripKey "/cfg/a/b" "/cfg" ≠ "" ∧ sampleUnmarshal "abc" = none)
      ∧ lookupPath (.obj (update sampleUnmarshal .nil ⟨"/cfg/a/b", "abc"⟩ "put" "/cfg"))
          ["a", "b"] = some (.str "abc")
      ∧ lookupPath (.obj (update sampleUnmarshal .nil ⟨"/cfg/a/b", "1"⟩ "put" "/cfg"))
          ["a", "b"] = some (.num "1")
      ∧ update sampleUnmarshal (.cons "a" (.num "1") .nil)
          ⟨"/cfg", "\x7b\"k\":1\x7d"⟩ "put" "/cfg" = .cons "k" (.num "1") .nil
      ∧ makeMap sampleUnmarshal [⟨"/cfg/a", "abc"⟩, ⟨"/cfg/b", "1"⟩] "/cfg"
          = .cons "a" (.str "abc") (.cons "b" (.num "1") .nil) :=
  ⟨Or.inl rfl, ⟨by decide, rfl⟩,
    ((update_put_stores_value sampleUnmarshal .nil "/cfg" "/cfg/a/b" "abc" "put"
      (Or.inl rfl)).1 (by decide)).1 rfl,
    ((update_put_stores_value sampleUnmarshal .nil "/cfg" "/cfg/a/b" "1" "put"
      (Or.inl rfl)).1 (by decide)).2 _ rfl,
    ((update_put_stores_value sampleUnmarshal (.cons "a" (.num "1") .nil) "/cfg" "/cfg"
      "\x7b\"k\":1\x7d" "put" (Or.inl rfl)).2 rfl).2.2 _ rfl,
    rfl⟩

/-! ## Dotted paths -/

theorem splitChars_append_sep (sep : Char) (tl : List Char) :
    ∀ piece : List Char, sep ∉ piece →
      splitChars sep (piece ++ sep :: tl) = piece :: splitChars sep tl
  | [], _ => by
    show splitChars sep (sep :: tl) = _
    conv_lhs => unfold splitChars
    rw [if_pos rfl]
  | c :: cs, h => by
    have hc : c ≠ sep := fun e => h (by simp [e])
    have hcs : sep ∉ cs := fun e => h (by simp [e])
    show splitChars sep (c :: (cs ++ sep :: tl)) = _
    conv_lhs => unfold splitChars
    rw [if_neg hc, splitChars_append_sep sep tl cs hcs]

/-- Splitting what `joinChars` built gives the pieces back. -/
theorem splitChars_joinChars (sep : Char) :
    ∀ pieces : List (List Char), pieces ≠ [] → (∀ piece ∈ pieces, sep ∉ piece) →
      splitChars sep (joinChars sep pieces) = pieces
  | [], h, _ => absurd rfl h
  | [piece], _, hsep => splitChars_of_not_mem sep piece (hsep piece (by simp))
  | piece :: next :: pieces, _, hsep => by
    show splitChars sep (piece ++ sep :: joinChars sep (next :: pieces)) = _
    rw [splitChars_append_sep sep _ piece (hsep piece (by simp)),
      splitChars_joinChars sep (next :: pieces) (List.cons_ne_nil _ _)
        (fun q hq => hsep q (List.mem_cons_of_mem _ hq))]

theorem Split_Join (segs : List String) (sep : Char) (hne : segs ≠ [])
    (hsep : ∀ s ∈ segs, Contains s sep = false) :
    Split (Join segs sep) sep = segs := by
  have hpieces : ∀ piece ∈ segs.map String.data, sep ∉ piece := by
    intro piece hp
    obtain ⟨s, hs, rfl⟩ := List.mem_map.1 hp
    intro hm
    have : Contains s sep = true := by simpa [Contains] using hm
    rw [hsep s hs] at this
    exact Bool.noConfusion this
  unfold Split Join
  rw [splitChars_joinChars sep _ (by simpa using hne) hpieces, List.map_map]
  have hid : ∀ s ∈ segs, (String.mk ∘ String.data) s = s := fun _ _ => rfl
  rw [List.map_congr_left hid, List.map_id']

/-- C13: for two or more segments none of which contains a dot, the path
resolved from the single dotted string is the path resolved from the segments,
which is the list of segments itself, so `Get` returns the same handle for
both; and no argument resolves to the empty path. -/
theorem resolvePath_dotted_eq_segments (segs : List String) (hlen : 2 ≤ segs.length)
    (hdot : ∀ s ∈ segs, Contains s '.' = false) :
    resolvePath [Join segs '.'] = resolvePath segs
      ∧ resolvePath segs = segs
      ∧ resolvePath [] = []
      ∧ (∀ j : jsonValues, j.Get [Join segs '.'] = j.Get segs) := by
  have hne : segs ≠ [] := by
    intro e
    rw [e] at hlen
    simp at hlen
  have hsegs : resolvePath segs = segs := by
    match segs, hlen with
    | _ :: _ :: _, _ => rfl
  have hjoin : resolvePath [Join segs '.'] = segs := by
    show Split (Join segs '.') '.' = segs
    exact Split_Join segs '.' hne hdot
  refine ⟨by rw [hjoin, hsegs], hsegs, rfl, ?_⟩
  intro j
  unfold jsonValues.Get
  rw [hjoin, hsegs]

/-- C13, at a concrete input: the segments `a`, `b`, `c` and the string `a.b.c`. -/
theorem resolvePath_dotted_eq_segments_witness :
    (2 ≤ ["a", "b", "c"].length ∧ ∀ s ∈ ["a", "b", "c"], Contains s '.' = false)
      ∧ Join ["a", "b", "c"] '.' = "a.b.c"
      ∧ resolvePath ["a.b.c"] = ["a", "b", "c"]
      ∧ resolvePath [Join ["a", "b", "c"] '.'] = resolvePath ["a", "b", "c"] :=
  have hdot : ∀ s ∈ ["a", "b", "c"], Contains s '.' = false := by
    intro s hs
    simp only [List.mem_cons, List.mem_singleton, List.not_mem_nil, or_false] at hs
    rcases hs with rfl | rfl | rfl <;> decide
  ⟨⟨by decide, hdot⟩, by decide, by decide,
    (resolvePath_dotted_eq_segments ["a", "b", "c"] (by decide) hdot).1⟩

end Config
